import Mathlib

set_option maxRecDepth 8000

/- Shallow embedding of the tic-tac-toe Q-learning engine (game_logic.py).
   A board is the packed base-3 natural Board.state; cell (row, col) is the
   base-3 digit at flat index row * 3 + col (0 empty, 1 X, 2 O). -/

/-- Base-3 digit of a packed state at flat index i; this is the arithmetic
performed by Board._get_cell on a flat index. -/
def digit (state i : Nat) : Nat := state / 3 ^ i % 3

/-- D4 symmetry group for a square board: 4 rotations + 4 reflections
(the tuple _TRANSFORMS of lambdas in the source, indexed by transform_id).
Rows and columns stay in 0..2 at every call site, where Nat subtraction
agrees with Python's integer subtraction. -/
def _TRANSFORMS (transform_id r c : Nat) : Nat × Nat :=
  match transform_id with
  | 0 => (r, c)           -- identity
  | 1 => (c, 2 - r)       -- rotate 90
  | 2 => (2 - r, 2 - c)   -- rotate 180
  | 3 => (2 - c, r)       -- rotate 270
  | 4 => (r, 2 - c)       -- reflect vertical axis
  | 5 => (2 - r, c)       -- reflect horizontal axis
  | 6 => (c, r)           -- reflect main diagonal
  | 7 => (2 - c, 2 - r)   -- reflect anti-diagonal
  | _ => (r, c)           -- unreachable: every call uses transform_id < 8

/-- Apply one symmetry transform to a flat tile index [0..8]. -/
def _transform_index (index transform_id : Nat) : Nat :=
  let rc := _TRANSFORMS transform_id (index / 3) (index % 3)
  rc.1 * 3 + rc.2

/-- Transform a base-3 encoded board state under one symmetry. -/
def _transform_state (state transform_id : Nat) : Nat :=
  (List.range 9).foldl
    (fun new_state i =>
      if digit state i ≠ 0 then
        new_state + digit state i * 3 ^ _transform_index i transform_id
      else new_state)
    0

/-- Python's tuple comparison on (state, action) keys: lexicographic order. -/
def keyLt (k1 k2 : Nat × Nat) : Prop :=
  k1.1 < k2.1 ∨ (k1.1 = k2.1 ∧ k1.2 < k2.2)

instance keyLt.decidable (k1 k2 : Nat × Nat) : Decidable (keyLt k1 k2) := by
  unfold keyLt; infer_instance

/-- Map (state, action) to a canonical representative across all 8 symmetries:
the minimum candidate key. The source starts with best_key = None and the
first loop iteration always installs the transform-0 key, so folding from the
transform-0 key over all eight candidates computes the same value. -/
def canonicalize_state_action (state action : Nat) : Nat × Nat :=
  ((List.range 8).map fun transform_id =>
      (_transform_state state transform_id, _transform_index action transform_id)).foldl
    (fun best_key key => if keyLt key best_key then key else best_key)
    (_transform_state state 0, _transform_index action 0)

/-- Board._get_cell: return cell value 0 empty, 1 X, 2 O. -/
def get_cell (state row col : Nat) : Nat := digit state (row * 3 + col)

/-- Board._set_cell: set one cell by rewriting its base-3 digit in the packed
state (state -= current * 3^index; state += value * 3^index). -/
def set_cell (state row col value : Nat) : Nat :=
  state - get_cell state row col * 3 ^ (row * 3 + col) + value * 3 ^ (row * 3 + col)

/-- Board.is_valid_move; callers may pass arbitrary integers, and Python's
short-circuit `and` reads the cell only when the bounds tests pass. -/
def is_valid_move (state : Nat) (row col : Int) : Bool :=
  decide (0 ≤ row) && decide (row < 3) && decide (0 ≤ col) && decide (col < 3) &&
    (get_cell state row.toNat col.toNat == 0)

/-- Board.get_valid_moves: flat indices of the empty cells, ascending
(the source iterates i over range(9) and keeps i with divmod(i, 3) valid). -/
def get_valid_moves (state : Nat) : List Nat :=
  (List.range 9).filter fun i => is_valid_move state ((i : Int) / 3) ((i : Int) % 3)

/-- Board.make_move_cpu: apply move index [0..8] for player 1/2 if legal.
Returns the Python success flag together with the possibly updated state. -/
def make_move_cpu (state player_num : Nat) (move : Int) : Bool × Nat :=
  if 0 ≤ move ∧ move < 9 then
    if is_valid_move state (move / 3) (move % 3) then
      (true, set_cell state (move / 3).toNat (move % 3).toNat player_num)
    else (false, state)
  else (false, state)

/-- The 8 lines scanned by Board.check_winner, in the source's construction
order: row i then column i for i = 0, 1, 2, then the two diagonals. -/
def linesOf (state : Nat) : List (List Nat) :=
  [ [get_cell state 0 0, get_cell state 0 1, get_cell state 0 2],
    [get_cell state 0 0, get_cell state 1 0, get_cell state 2 0],
    [get_cell state 1 0, get_cell state 1 1, get_cell state 1 2],
    [get_cell state 0 1, get_cell state 1 1, get_cell state 2 1],
    [get_cell state 2 0, get_cell state 2 1, get_cell state 2 2],
    [get_cell state 0 2, get_cell state 1 2, get_cell state 2 2],
    [get_cell state 0 0, get_cell state 1 1, get_cell state 2 2],
    [get_cell state 0 2, get_cell state 1 1, get_cell state 2 0] ]

/-- The per-line test of check_winner: line.count(line[0]) == 3 and line[0] != 0. -/
def lineDecided (l : List Nat) : Bool :=
  (l.count (l.headD 0) == 3) && (l.headD 0 != 0)

/-- Board.check_winner: -1 draw, 0 in-progress, 1 X won, 2 O won. -/
def check_winner (state : Nat) : Int :=
  match (linesOf state).find? lineDecided with
  | some l => (l.headD 0 : Nat)
  | none =>
    if (List.range 3).all (fun r => (List.range 3).all fun c => get_cell state r c != 0)
    then -1 else 0

/-- The shared Q table: a Python dict from canonical (state, action) keys to
(total_reward, times) pairs of Python ints, modeled as an association list. -/
abbrev QTable := List ((Nat × Nat) × (Int × Int))

/-- Dict lookup q_values.get(key, (0, 0)). -/
def qget (q : QTable) (key : Nat × Nat) : Int × Int :=
  match q.find? fun e => e.1 == key with
  | some e => e.2
  | none => (0, 0)

/-- Dict assignment q_values[key] = v: replace the binding if the key is
present, otherwise add a new binding. -/
def qset (q : QTable) (key : Nat × Nat) (v : Int × Int) : QTable :=
  if q.any fun e => e.1 == key then
    q.map fun e => if e.1 == key then (key, v) else e
  else q ++ [(key, v)]

/-- One call's worth of randomness for get_and_save_move: the value drawn by
random.random() (a real in [0, 1), modeled as a rational) and the index drawn
by random.choice. -/
structure MoveCtx where
  rand : ℚ
  pick : Nat

/-- random.choice xs, driven by an oracle index; callers only reach it with a
nonempty list, where it returns an actual element of the list. -/
def choiceOf (l : List Nat) (n : Nat) : Nat := l.getD (n % l.length) 0

/-- Python's max over a nonempty list (max raises on an empty list, which no
call site reaches; a default keeps the model total). -/
def listMax {α : Type} [Max α] (l : List α) (dflt : α) : α := l.foldl max (l.headD dflt)

/-- Python's min over a nonempty list, as listMax. -/
def listMin {α : Type} [Min α] (l : List α) (dflt : α) : α := l.foldl min (l.headD dflt)

/-- Accumulated total reward stored for (state, move), via the canonical key. -/
def qtotal (q : QTable) (state m : Nat) : Int :=
  (qget q (canonicalize_state_action state m)).1

/-- Stored visit count for (state, move), via the canonical key. -/
def qcount (q : QTable) (state m : Nat) : Int :=
  (qget q (canonicalize_state_action state m)).2

/-- avg = total / count if count > 0 else 0 (Python float division, modeled
exactly over the rationals). -/
def qavg (q : QTable) (state m : Nat) : ℚ :=
  if 0 < qcount q state m then (qtotal q state m : ℚ) / (qcount q state m : ℚ) else 0

/-- The list q_avgs of (avg, count, m) built over the valid moves. -/
def q_avgs (state : Nat) (q : QTable) : List (ℚ × Int × Nat) :=
  (get_valid_moves state).map fun m => (qavg q state m, qcount q state m, m)

/-- The exploitation branch of CPU.get_and_save_move: best_moves after both
tie-filters (first keep the moves of maximal average, then of maximal count). -/
def best_moves (state : Nat) (q : QTable) : List Nat :=
  let avgs := q_avgs state q
  let max_avg := listMax (avgs.map fun x => x.1) 0
  let best1 := (avgs.filter fun x => x.1 == max_avg).map fun x => x.2
  let max_count := listMax (best1.map fun x => x.1) 0
  (best1.filter fun x => x.1 == max_count).map fun x => x.2

/-- CPU.get_and_save_move: choose a move (exploration when gen == 1, no table,
or the epsilon draw fires; otherwise exploit with the documented tie-breaks)
and append the canonical key of the chosen move to the agent's history. -/
def get_and_save_move (state gen : Nat) (q_values : Option QTable) (epsilon : ℚ)
    (ctx : MoveCtx) (moves_hist : List (Nat × Nat)) : Nat × List (Nat × Nat) :=
  let moves := get_valid_moves state
  let move :=
    if gen == 1 || q_values.isNone || decide (ctx.rand < epsilon) then
      choiceOf moves ctx.pick
    else
      let best2 := best_moves state (q_values.getD [])
      if gen == 3 && epsilon == 0 then listMin best2 0 else choiceOf best2 ctx.pick
  (move, moves_hist ++ [canonicalize_state_action state move])

/-- Terminal rewards (reward1, reward2) computed by simulate_game from the
final check_winner value: draw gives 0/0, a win gives +1 to the winner's
marker and -1 to the other. -/
def rewardsOf (result : Int) : Int × Int :=
  if result == -1 then (0, 0) else if result == 1 then (1, -1) else (-1, 1)

/-- Statistics update of simulate_game: draws or win_loss is incremented. -/
def statsOf (result : Int) (win_loss draws : Nat) : Nat × Nat :=
  if result == -1 then (win_loss, draws + 1) else (win_loss + 1, draws)

/-- The learning update of simulate_game for one agent: for every recorded
canonical key, add the terminal reward to its total and 1 to its count. -/
def apply_rewards (q : QTable) (keys : List (Nat × Nat)) (reward : Int) : QTable :=
  keys.foldl
    (fun acc key =>
      let tc := qget acc key
      qset acc key (tc.1 + reward, tc.2 + 1))
    q

/-- The game loop of simulate_game: the active agent picks and plays a move,
then the loop stops as soon as check_winner is nonzero.  cur = true means
cpu1 (marker 1) is active.  ply indexes the oracle stream; fuel bounds the
iteration count (the loop itself is while True) and none models running out. -/
def play_loop (gen : Nat) (epsilon : ℚ) (q_values : QTable) (ctx : Nat → MoveCtx) :
    Nat → Nat → Bool → Nat → List (Nat × Nat) → List (Nat × Nat) →
    Option (Nat × List (Nat × Nat) × List (Nat × Nat) × Int)
  | 0, _, _, _, _, _ => none
  | fuel + 1, ply, cur, board, hist1, hist2 =>
    let picked := get_and_save_move board gen (some q_values) epsilon (ctx ply)
      (if cur then hist1 else hist2)
    let move := picked.1
    let hist1' := if cur then picked.2 else hist1
    let hist2' := if cur then hist2 else picked.2
    let board' := (make_move_cpu board (if cur then 1 else 2) (move : Int)).2
    let result := check_winner board'
    if result ≠ 0 then some (board', hist1', hist2', result)
    else play_loop gen epsilon q_values ctx fuel (ply + 1) (!cur) board' hist1' hist2'

/-- simulate_game: reset both histories, run one self-play game from a fresh
board, and on termination update the statistics and (when learning is on)
write the terminal rewards into the shared table for every recorded key.
Returns the updated table, the statistics, both histories and the result. -/
def simulate_game (q_values : QTable) (win_loss draws : Nat) (gen : Nat) (epsilon : ℚ)
    (learn : Bool) (ctx : Nat → MoveCtx) (fuel : Nat) :
    Option (QTable × Nat × Nat × List (Nat × Nat) × List (Nat × Nat) × Int) :=
  match play_loop gen epsilon q_values ctx fuel 0 true 0 [] [] with
  | none => none
  | some (_, hist1, hist2, result) =>
    let rw := rewardsOf result
    let st := statsOf result win_loss draws
    let q' := if learn then apply_rewards (apply_rewards q_values hist1 rw.1) hist2 rw.2
              else q_values
    some (q', st.1, st.2, hist1, hist2, result)

/-- Value of a little-endian list of base-3 digits. -/
def fromDigits : List Nat → Nat
  | [] => 0
  | c :: L => c + 3 * fromDigits L

/-- Inverse permutation tables of the 8 transforms on flat indices: row t
lists, for each target index j, the source index whose digit lands on j. -/
def invTable : List (List Nat) :=
  [ [0, 1, 2, 3, 4, 5, 6, 7, 8],
    [6, 3, 0, 7, 4, 1, 8, 5, 2],
    [8, 7, 6, 5, 4, 3, 2, 1, 0],
    [2, 5, 8, 1, 4, 7, 0, 3, 6],
    [2, 1, 0, 5, 4, 3, 8, 7, 6],
    [6, 7, 8, 3, 4, 5, 0, 1, 2],
    [0, 3, 6, 1, 4, 7, 2, 5, 8],
    [8, 5, 2, 7, 4, 1, 6, 3, 0] ]

def invT (t j : Nat) : Nat := (invTable.getD t []).getD j 0

/-- Composition table of the transforms: compT g t is the transform acting
like t followed by g (computed by search, certified by decidable facts). -/
def compT (g t : Nat) : Nat :=
  (((List.range 8).filter fun u =>
      (List.range 9).all fun i =>
        _transform_index (_transform_index i t) g == _transform_index i u)).headD 0

/-- The candidate keys over which canonicalize_state_action minimizes. -/
def canonKeys (state action : Nat) : List (Nat × Nat) :=
  (List.range 8).map fun t => (_transform_state state t, _transform_index action t)

/-- Some line of the board holds marker p in all three cells. -/
def has_line (s p : Nat) : Prop := ∃ l ∈ linesOf s, ∀ x ∈ l, x = p

instance has_line.decidable (s p : Nat) : Decidable (has_line s p) := by
  unfold has_line; infer_instance

/-- No empty cell remains on the board. -/
def board_full (s : Nat) : Prop := ∀ i < 9, digit s i ≠ 0

instance board_full.decidable (s : Nat) : Decidable (board_full s) := by
  unfold board_full; infer_instance

/-- max_avg of the exploitation branch. -/
def max_avg_of (s : Nat) (q : QTable) : ℚ := listMax ((q_avgs s q).map fun x => x.1) 0

/-- best_moves after the first filter: the (count, m) pairs of maximal average. -/
def best1_of (s : Nat) (q : QTable) : List (Int × Nat) :=
  ((q_avgs s q).filter fun x => x.1 == max_avg_of s q).map fun x => x.2

/-- max_count of the exploitation branch. -/
def max_count_of (s : Nat) (q : QTable) : Int := listMax ((best1_of s q).map fun x => x.1) 0

/-- Concrete table for the spec's deterministic tie-break scenario on board
489 (X at cell 1, O at cell 5): the canonical keys of moves 0 and 4 hold
(total 1, count 2), i.e. average reward 1/2; every other key is absent. -/
def tie_table : QTable := [((33, 6), (1, 2)), ((33, 4), (1, 2))]

/-- Number of empty cells (length of the legal move list). -/
def emptyCnt (b : Nat) : Nat := (get_valid_moves b).length

/-- The value-table invariant of the spec: nonnegative count, and the
accumulated sum within [-count, +count]. -/
def table_inv (q : QTable) : Prop :=
  ∀ k, 0 ≤ (qget q k).2 ∧ -(qget q k).2 ≤ (qget q k).1 ∧ (qget q k).1 ≤ (qget q k).2

/- ---------------------------------------------------------------------
   Base-3 digit arithmetic
   --------------------------------------------------------------------- -/

theorem digit_lt (s i : Nat) : digit s i < 3 :=
  Nat.mod_lt _ (by norm_num)

theorem pow3_pos (i : Nat) : 0 < 3 ^ i := Nat.pos_pow_of_pos i (by norm_num)

/-- Every state splits around digit i: high part, the digit, and the low part. -/
theorem digit_decomp (s i : Nat) :
    s = s / 3 ^ (i + 1) * 3 ^ (i + 1) + digit s i * 3 ^ i + s % 3 ^ i := by
  have h3 : s / 3 ^ i / 3 = s / 3 ^ (i + 1) := by
    rw [Nat.div_div_eq_div_mul, pow_succ]
  calc s = s / 3 ^ i * 3 ^ i + s % 3 ^ i := (Nat.div_add_mod' _ _).symm
    _ = (s / 3 ^ i / 3 * 3 + s / 3 ^ i % 3) * 3 ^ i + s % 3 ^ i := by
        conv_rhs => rw [Nat.div_add_mod' (s / 3 ^ i) 3]
    _ = s / 3 ^ (i + 1) * 3 ^ (i + 1) + digit s i * 3 ^ i + s % 3 ^ i := by
        rw [h3, digit, pow_succ]; ring

/-- Writing digit i (with a value < 3) leaves that digit and only rewrites it. -/
theorem digit_update (s i v : Nat) (hv : v < 3) (j : Nat) :
    digit (s - digit s i * 3 ^ i + v * 3 ^ i) j = if j = i then v else digit s j := by
  set a := s / 3 ^ (i + 1) with ha
  set d := digit s i with hd
  set r := s % 3 ^ i with hr
  have hdlt : d < 3 := digit_lt s i
  have hrlt : r < 3 ^ i := Nat.mod_lt _ (pow3_pos i)
  have hs : s = a * 3 ^ (i + 1) + d * 3 ^ i + r := digit_decomp s i
  have hsub : s - d * 3 ^ i = a * 3 ^ (i + 1) + r := by
    have h : s = a * 3 ^ (i + 1) + r + d * 3 ^ i := by rw [hs]; ring
    rw [h, Nat.add_sub_cancel]
  rw [hsub]
  have hu : a * 3 ^ (i + 1) + r + v * 3 ^ i = 3 ^ i * (3 * a + v) + r := by
    rw [pow_succ]; ring
  rcases lt_trichotomy j i with hj | hj | hj
  · -- low digits are untouched
    simp only [if_neg (Nat.ne_of_lt hj)]
    obtain ⟨e, he⟩ : ∃ e, i = j + (e + 1) :=
      ⟨i - j - 1, by omega⟩
    have hpow : (3 : Nat) ^ i = 3 ^ j * 3 ^ (e + 1) := by rw [he, pow_add]
    have hpow1 : (3 : Nat) ^ (i + 1) = 3 ^ j * 3 ^ (e + 2) := by
      rw [he]
      have : j + (e + 1) + 1 = j + (e + 2) := by omega
      rw [this, pow_add]
    have hformu : a * 3 ^ (i + 1) + r + v * 3 ^ i
        = 3 ^ j * (3 * (a * 3 ^ (e + 1) + v * 3 ^ e)) + r := by
      rw [hpow, hpow1, pow_succ, pow_succ]; ring
    have hforms : s = 3 ^ j * (3 * (a * 3 ^ (e + 1) + d * 3 ^ e)) + r := by
      rw [hs, hpow, hpow1, pow_succ, pow_succ]; ring
    rw [digit, hformu, Nat.mul_add_div (pow3_pos j), Nat.mul_add_mod]
    conv_rhs => rw [digit, hforms, Nat.mul_add_div (pow3_pos j), Nat.mul_add_mod]
  · -- the written digit
    subst hj
    rw [if_pos rfl, digit, hu, Nat.mul_add_div (pow3_pos j), Nat.div_eq_of_lt hrlt,
      Nat.add_zero, Nat.mul_add_mod, Nat.mod_eq_of_lt hv]
  · -- high digits are untouched
    simp only [if_neg (Nat.ne_of_gt hj)]
    obtain ⟨w, hw⟩ : ∃ w, j = (i + 1) + w := ⟨j - (i + 1), by omega⟩
    have hpowj : (3 : Nat) ^ j = 3 ^ (i + 1) * 3 ^ w := by rw [hw, pow_add]
    have hsmallu : r + v * 3 ^ i < 3 ^ (i + 1) := by
      rw [pow_succ]
      have : v * 3 ^ i ≤ 2 * 3 ^ i := by
        exact Nat.mul_le_mul_right _ (by omega)
      omega
    have hsmalls : d * 3 ^ i + r < 3 ^ (i + 1) := by
      rw [pow_succ]
      have : d * 3 ^ i ≤ 2 * 3 ^ i := Nat.mul_le_mul_right _ (by omega)
      omega
    have hu2 : a * 3 ^ (i + 1) + r + v * 3 ^ i = 3 ^ (i + 1) * a + (r + v * 3 ^ i) := by
      ring
    have hs2 : s = 3 ^ (i + 1) * a + (d * 3 ^ i + r) := by rw [hs]; ring
    rw [digit, hu2, hpowj, ← Nat.div_div_eq_div_mul,
      Nat.mul_add_div (pow3_pos (i + 1)), Nat.div_eq_of_lt hsmallu, Nat.add_zero]
    conv_rhs => rw [digit, hs2, hpowj, ← Nat.div_div_eq_div_mul,
      Nat.mul_add_div (pow3_pos (i + 1)), Nat.div_eq_of_lt hsmalls, Nat.add_zero]

/-- set_cell in digit terms. -/
theorem set_cell_digit (s row col v : Nat) (hv : v < 3) (j : Nat) :
    digit (set_cell s row col v) j = if j = row * 3 + col then v else digit s j := by
  unfold set_cell get_cell
  exact digit_update s (row * 3 + col) v hv j

/- ---------------------------------------------------------------------
   Little-endian base-3 reconstruction, used to reason about the
   digit-permuting transforms
   --------------------------------------------------------------------- -/

theorem fromDigits_lt (L : List Nat) (h : ∀ c ∈ L, c < 3) :
    fromDigits L < 3 ^ L.length := by
  induction L with
  | nil => simp [fromDigits]
  | cons c T ih =>
    have hc : c < 3 := h c (by simp)
    have ht := ih fun x hx => h x (by simp [hx])
    simp only [fromDigits, List.length_cons, pow_succ]
    omega

theorem fromDigits_digit (L : List Nat) (h : ∀ c ∈ L, c < 3) :
    ∀ j, j < L.length → digit (fromDigits L) j = L.getD j 0 := by
  induction L with
  | nil => intro j hj; simp at hj
  | cons c T ih =>
    intro j hj
    have hc : c < 3 := h c (by simp)
    match j with
    | 0 =>
      simp only [fromDigits, digit, pow_zero, Nat.div_one, List.getD_cons_zero]
      omega
    | j + 1 =>
      have hX : (c + 3 * fromDigits T) / 3 = fromDigits T := by
        rw [Nat.add_mul_div_left _ _ (by norm_num : (0 : Nat) < 3),
          Nat.div_eq_of_lt hc, Nat.zero_add]
      have hstep : digit (fromDigits (c :: T)) (j + 1) = digit (fromDigits T) j := by
        simp only [fromDigits, digit]
        rw [pow_succ', ← Nat.div_div_eq_div_mul, hX]
      rw [hstep, List.getD_cons_succ]
      exact ih (fun x hx => h x (by simp [hx])) j (by simpa using hj)

theorem fromDigits_range (k : Nat) : ∀ n, n < 3 ^ k →
    fromDigits ((List.range k).map fun j => digit n j) = n := by
  induction k with
  | zero =>
    intro n hn
    interval_cases n
    rfl
  | succ k ih =>
    intro n hn
    rw [List.range_succ_eq_map]
    simp only [List.map_cons, List.map_map]
    have hcomp : ((fun j => digit n j) ∘ Nat.succ) = fun j => digit (n / 3) j := by
      funext j
      simp only [Function.comp, digit]
      rw [pow_succ', ← Nat.div_div_eq_div_mul]
    have hdiv : n / 3 < 3 ^ k := by
      rw [Nat.div_lt_iff_lt_mul (by norm_num : (0 : Nat) < 3)]
      rw [pow_succ] at hn
      exact hn
    rw [hcomp, fromDigits, ih (n / 3) hdiv]
    simp only [digit, pow_zero, Nat.div_one]
    exact Nat.mod_add_div n 3

/-- Two states below 3^9 with equal digits 0..8 are equal. -/
theorem digit_ext9 {a b : Nat} (ha : a < 3 ^ 9) (hb : b < 3 ^ 9)
    (h : ∀ j, j < 9 → digit a j = digit b j) : a = b := by
  rw [← fromDigits_range 9 a ha, ← fromDigits_range 9 b hb]
  congr 1
  exact List.map_congr_left fun j hj => h j (List.mem_range.mp hj)

theorem map_range_getD (f : Nat → Nat) (k j : Nat) (h : j < k) :
    ((List.range k).map f).getD j 0 = f j := by
  rw [List.getD_eq_getElem?_getD, List.getElem?_map, List.getElem?_range h]
  rfl

/- ---------------------------------------------------------------------
   The 8 transforms as digit permutations
   --------------------------------------------------------------------- -/

theorem invT_lt : ∀ t < 8, ∀ j < 9, invT t j < 9 := by decide

theorem transform_index_lt : ∀ t < 8, ∀ i < 9, _transform_index i t < 9 := by decide

theorem transform_index_invT : ∀ t < 8, ∀ j < 9,
    _transform_index (invT t j) t = j := by decide

theorem compT_lt : ∀ g < 8, ∀ t < 8, compT g t < 8 := by decide

theorem transform_index_comp : ∀ g < 8, ∀ t < 8, ∀ i < 9,
    _transform_index (_transform_index i t) g = _transform_index i (compT g t) := by
  decide

theorem invT_comp : ∀ g < 8, ∀ t < 8, ∀ j < 9,
    invT t (invT g j) = invT (compT g t) j := by decide

theorem compT_zero : ∀ g < 8, compT g 0 = g := by decide

theorem compT_surj : ∀ t < 8, ∀ u < 8, ∃ g < 8, compT g t = u := by decide

theorem invT_perm : ∀ t < 8, ((List.range 9).map (invT t)).Perm (List.range 9) := by
  decide

theorem range9_eq : List.range 9 = [0, 1, 2, 3, 4, 5, 6, 7, 8] := by rfl

theorem range8_eq : List.range 8 = [0, 1, 2, 3, 4, 5, 6, 7] := by rfl

theorem ite_digit_skip (c a k : Nat) : (if c ≠ 0 then a + c * k else a) = a + c * k := by
  by_cases h : c = 0 <;> simp [h]

/-- Each transform writes the digits of s onto permuted positions: the
transformed state is the base-3 number whose digit j is digit (invT t j) of s. -/
theorem ts_eq_fromDigits (t : Nat) (ht : t < 8) (s : Nat) :
    _transform_state s t = fromDigits ((List.range 9).map fun j => digit s (invT t j)) := by
  interval_cases t <;>
    simp only [_transform_state, range9_eq, List.foldl, List.map, fromDigits,
      _transform_index, _TRANSFORMS, invT, invTable, List.getD, List.getElem?_cons_zero,
      List.getElem?_cons_succ, Option.getD_some, ite_digit_skip] <;>
    norm_num <;> ring

theorem transform_state_lt (s t : Nat) (ht : t < 8) : _transform_state s t < 3 ^ 9 := by
  rw [ts_eq_fromDigits t ht s]
  have h := fromDigits_lt ((List.range 9).map fun j => digit s (invT t j)) ?_
  · simpa using h
  · intro c hc
    simp only [List.mem_map] at hc
    obtain ⟨j, _, rfl⟩ := hc
    exact digit_lt _ _

theorem ts_digit (t : Nat) (ht : t < 8) (s j : Nat) (hj : j < 9) :
    digit (_transform_state s t) j = digit s (invT t j) := by
  rw [ts_eq_fromDigits t ht s, fromDigits_digit]
  · exact map_range_getD _ 9 j hj
  · intro c hc
    simp only [List.mem_map] at hc
    obtain ⟨i, _, rfl⟩ := hc
    exact digit_lt _ _
  · simpa using hj

/-- Applying transform t then transform g equals applying compT g t. -/
theorem transform_state_comp (g t : Nat) (hg : g < 8) (ht : t < 8) (s : Nat) :
    _transform_state (_transform_state s t) g = _transform_state s (compT g t) := by
  have hc8 : compT g t < 8 := compT_lt g hg t ht
  apply digit_ext9 (transform_state_lt _ _ hg) (transform_state_lt _ _ hc8)
  intro j hj
  rw [ts_digit g hg _ j hj, ts_digit t ht s _ (invT_lt g hg j hj),
    ts_digit (compT g t) hc8 s j hj, invT_comp g hg t ht j hj]

/- ---------------------------------------------------------------------
   The canonical key as a minimum over the 8 candidate keys
   --------------------------------------------------------------------- -/

theorem keyLt_irrefl (k : Nat × Nat) : ¬ keyLt k k := by
  unfold keyLt; omega

theorem keyLt_trans {a b c : Nat × Nat} (h1 : keyLt a b) (h2 : keyLt b c) : keyLt a c := by
  unfold keyLt at *; omega

theorem keyLt_antisymm {a b : Nat × Nat} (h1 : ¬ keyLt a b) (h2 : ¬ keyLt b a) : a = b := by
  obtain ⟨a1, a2⟩ := a
  obtain ⟨b1, b2⟩ := b
  simp only [keyLt, not_or, not_and, Prod.mk.injEq] at *
  omega

theorem keyLt_cases (a b : Nat × Nat) : keyLt a b ∨ a = b ∨ keyLt b a := by
  obtain ⟨a1, a2⟩ := a
  obtain ⟨b1, b2⟩ := b
  simp only [keyLt, Prod.mk.injEq]
  omega

theorem foldl_keyMin_mem (l : List (Nat × Nat)) (init : Nat × Nat) :
    l.foldl (fun b k => if keyLt k b then k else b) init ∈ init :: l := by
  induction l generalizing init with
  | nil => simp
  | cons k rest ih =>
    simp only [List.foldl_cons]
    have h := ih (if keyLt k init then k else init)
    by_cases hk : keyLt k init <;> simp [hk] at h ⊢ <;> tauto

theorem foldl_keyMin_le (l : List (Nat × Nat)) :
    ∀ init, ∀ x ∈ init :: l,
      ¬ keyLt x (l.foldl (fun b k => if keyLt k b then k else b) init) := by
  induction l with
  | nil =>
    intro init x hx
    simp only [List.mem_cons, List.not_mem_nil, or_false] at hx
    subst hx
    exact keyLt_irrefl _
  | cons k rest ih =>
    intro init x hx
    simp only [List.foldl_cons]
    simp only [List.mem_cons] at hx
    by_cases hk : keyLt k init
    · rw [if_pos hk]
      rcases hx with h | h | h
      · rw [h]
        intro habs
        exact ih k k (by simp) (keyLt_trans hk habs)
      · rw [h]
        exact ih k k (by simp)
      · exact ih k x (by simp [h])
    · rw [if_neg hk]
      rcases hx with h | h | h
      · rw [h]
        exact ih init init (by simp)
      · rw [h]
        intro habs
        have hres : ¬ keyLt init (rest.foldl (fun b k => if keyLt k b then k else b) init) :=
          ih init init (by simp)
        rcases keyLt_cases init k with h1 | h1 | h1
        · exact hres (keyLt_trans h1 habs)
        · exact hres (h1 ▸ habs)
        · exact hk h1
      · exact ih init x (by simp [h])

theorem canon_eq_fold (s a : Nat) :
    canonicalize_state_action s a =
      (canonKeys s a).foldl (fun b k => if keyLt k b then k else b)
        (_transform_state s 0, _transform_index a 0) := rfl

theorem canon_mem (s a : Nat) : canonicalize_state_action s a ∈ canonKeys s a := by
  have h := foldl_keyMin_mem (canonKeys s a) (_transform_state s 0, _transform_index a 0)
  rw [← canon_eq_fold] at h
  rcases List.mem_cons.mp h with h | h
  · rw [h]
    exact List.mem_map.mpr ⟨0, List.mem_range.mpr (by norm_num), rfl⟩
  · exact h

theorem canon_min (s a : Nat) :
    ∀ x ∈ canonKeys s a, ¬ keyLt x (canonicalize_state_action s a) := by
  intro x hx
  have h := foldl_keyMin_le (canonKeys s a) (_transform_state s 0, _transform_index a 0)
    x (List.mem_cons_of_mem _ hx)
  rw [← canon_eq_fold] at h
  exact h

theorem keyMin_unique {l1 l2 : List (Nat × Nat)} {r1 r2 : Nat × Nat}
    (h1m : r1 ∈ l1) (h1le : ∀ x ∈ l1, ¬ keyLt x r1)
    (h2m : r2 ∈ l2) (h2le : ∀ x ∈ l2, ¬ keyLt x r2)
    (hmem : ∀ x, x ∈ l1 ↔ x ∈ l2) : r1 = r2 :=
  keyLt_antisymm (h2le r1 ((hmem r1).mp h1m)) (h1le r2 ((hmem r2).mpr h2m))

theorem canonKeys_image (t : Nat) (ht : t < 8) (s a : Nat) (ha : a < 9) :
    canonKeys (_transform_state s t) (_transform_index a t) =
      (List.range 8).map fun g =>
        (_transform_state s (compT g t), _transform_index a (compT g t)) := by
  unfold canonKeys
  apply List.map_congr_left
  intro g hg
  have hg8 := List.mem_range.mp hg
  rw [transform_state_comp g t hg8 ht s, transform_index_comp g hg8 t ht a ha]

theorem canonKeys_image_mem (t : Nat) (ht : t < 8) (s a : Nat) (ha : a < 9) (x : Nat × Nat) :
    x ∈ canonKeys (_transform_state s t) (_transform_index a t) ↔ x ∈ canonKeys s a := by
  rw [canonKeys_image t ht s a ha]
  constructor
  · intro hx
    simp only [List.mem_map, List.mem_range] at hx
    obtain ⟨g, hg, rfl⟩ := hx
    exact List.mem_map.mpr ⟨compT g t, List.mem_range.mpr (compT_lt g hg t ht), rfl⟩
  · intro hx
    simp only [canonKeys, List.mem_map, List.mem_range] at hx
    obtain ⟨u, hu, rfl⟩ := hx
    obtain ⟨g, hg, hgu⟩ := compT_surj t ht u hu
    exact List.mem_map.mpr ⟨g, List.mem_range.mpr hg, by rw [hgu]⟩

/-- Canonicalizing the image of (s, a) under any of the 8 transforms yields
one and the same key. -/
theorem canon_image_eq (t1 t2 : Nat) (ht1 : t1 < 8) (ht2 : t2 < 8) (s a : Nat) (ha : a < 9) :
    canonicalize_state_action (_transform_state s t1) (_transform_index a t1) =
      canonicalize_state_action (_transform_state s t2) (_transform_index a t2) :=
  keyMin_unique (canon_mem _ _) (canon_min _ _) (canon_mem _ _) (canon_min _ _)
    (fun x => by
      rw [canonKeys_image_mem t1 ht1 s a ha x, ← canonKeys_image_mem t2 ht2 s a ha x])

theorem transform_index_zero (a : Nat) : _transform_index a 0 = a := by
  unfold _transform_index _TRANSFORMS
  simp only []
  omega

theorem canon_transform_zero (s a : Nat) :
    canonicalize_state_action (_transform_state s 0) (_transform_index a 0) =
      canonicalize_state_action s a := by
  rw [transform_index_zero a]
  unfold canonicalize_state_action
  have hl : ((List.range 8).map fun t =>
      (_transform_state (_transform_state s 0) t, _transform_index a t)) =
      (List.range 8).map fun t => (_transform_state s t, _transform_index a t) := by
    apply List.map_congr_left
    intro g hg
    have hg8 := List.mem_range.mp hg
    rw [transform_state_comp g 0 hg8 (by norm_num) s, compT_zero g hg8]
  have hi : _transform_state (_transform_state s 0) 0 = _transform_state s 0 := by
    rw [transform_state_comp 0 0 (by norm_num) (by norm_num) s,
      compT_zero 0 (by norm_num)]
  rw [hl, hi]

/-- Re-canonicalizing the output key of canonicalize_state_action is a no-op. -/
theorem canon_idem_aux (s a : Nat) (ha : a < 9) :
    canonicalize_state_action (canonicalize_state_action s a).1
      (canonicalize_state_action s a).2 = canonicalize_state_action s a := by
  obtain ⟨t, htm, heq⟩ := List.mem_map.mp (canon_mem s a)
  have ht : t < 8 := List.mem_range.mp htm
  have h1 : (canonicalize_state_action s a).1 = _transform_state s t := by rw [← heq]
  have h2 : (canonicalize_state_action s a).2 = _transform_index a t := by rw [← heq]
  rw [h1, h2]
  calc canonicalize_state_action (_transform_state s t) (_transform_index a t)
      = canonicalize_state_action (_transform_state s 0) (_transform_index a 0) :=
        canon_image_eq t 0 ht (by norm_num) s a ha
    _ = canonicalize_state_action s a := canon_transform_zero s a

/-- C1: for every board state S, action A in 0..8, and transforms T1, T2 of
the 8-element symmetry group, canonicalize_state_action applied to the
T1-image of (S, A) and to the T2-image of (S, A) return the same key; hence
all symmetric images of (S, A) share one canonical key. -/
theorem c1_symmetry_invariance (S A T1 T2 : Nat) (hA : A < 9) (hT1 : T1 < 8) (hT2 : T2 < 8) :
    canonicalize_state_action (_transform_state S T1) (_transform_index A T1) =
      canonicalize_state_action (_transform_state S T2) (_transform_index A T2) :=
  canon_image_eq T1 T2 hT1 hT2 S A hA

theorem c1_symmetry_invariance_witness :
    3 < 9 ∧ 1 < 8 ∧ 6 < 8 ∧
      canonicalize_state_action (_transform_state 5 1) (_transform_index 3 1) =
        canonicalize_state_action (_transform_state 5 6) (_transform_index 3 6) :=
  ⟨by norm_num, by norm_num, by norm_num,
    c1_symmetry_invariance 5 3 1 6 (by norm_num) (by norm_num) (by norm_num)⟩

/-- C9: canonicalize_state_action is idempotent — feeding its own output key
back in returns the same key, and the same holds for the canonical key of any
symmetric image of (S, A). -/
theorem c9_canonicalize_idempotent (S A : Nat) (hA : A < 9) :
    (canonicalize_state_action (canonicalize_state_action S A).1
        (canonicalize_state_action S A).2 = canonicalize_state_action S A) ∧
    ∀ T, T < 8 →
      canonicalize_state_action
          (canonicalize_state_action (_transform_state S T) (_transform_index A T)).1
          (canonicalize_state_action (_transform_state S T) (_transform_index A T)).2 =
        canonicalize_state_action (_transform_state S T) (_transform_index A T) := by
  refine ⟨canon_idem_aux S A hA, fun T hT => ?_⟩
  exact canon_idem_aux (_transform_state S T) (_transform_index A T)
    (transform_index_lt T hT A hA)

theorem c9_canonicalize_idempotent_witness :
    7 < 9 ∧
      canonicalize_state_action (canonicalize_state_action 42 7).1
        (canonicalize_state_action 42 7).2 = canonicalize_state_action 42 7 :=
  ⟨by norm_num, (c9_canonicalize_idempotent 42 7 (by norm_num)).1⟩

/- ---------------------------------------------------------------------
   Legal moves (C5) and move application (C6)
   --------------------------------------------------------------------- -/

theorem mem_get_valid_moves (s i : Nat) :
    i ∈ get_valid_moves s ↔ i < 9 ∧ digit s i = 0 := by
  unfold get_valid_moves is_valid_move get_cell
  rw [List.mem_filter, List.mem_range]
  have h1 : ((i : Int) / 3).toNat = i / 3 := by omega
  have h2 : ((i : Int) % 3).toNat = i % 3 := by omega
  constructor
  · rintro ⟨h9, hv⟩
    simp only [Bool.and_eq_true, decide_eq_true_eq, beq_iff_eq] at hv
    obtain ⟨-, hcell⟩ := hv
    rw [h1, h2, Nat.div_add_mod'] at hcell
    exact ⟨h9, hcell⟩
  · rintro ⟨h9, hd⟩
    refine ⟨h9, ?_⟩
    simp only [Bool.and_eq_true, decide_eq_true_eq, beq_iff_eq]
    refine ⟨⟨⟨⟨by omega, by omega⟩, by omega⟩, by omega⟩, ?_⟩
    rw [h1, h2, Nat.div_add_mod']
    exact hd

theorem get_valid_moves_sorted (s : Nat) : (get_valid_moves s).Sorted (· < ·) :=
  (List.pairwise_lt_range 9).sublist (List.filter_sublist _)

/-- C5: get_valid_moves returns exactly the flat indices row*3+col of the
currently empty cells, in strictly increasing index order. -/
theorem c5_get_valid_moves (S : Nat) :
    (∀ i, i ∈ get_valid_moves S ↔
      ∃ row col, row < 3 ∧ col < 3 ∧ i = row * 3 + col ∧ get_cell S row col = 0) ∧
    (get_valid_moves S).Sorted (· < ·) := by
  refine ⟨fun i => ?_, get_valid_moves_sorted S⟩
  rw [mem_get_valid_moves]
  constructor
  · rintro ⟨h9, hd⟩
    exact ⟨i / 3, i % 3, by omega, by omega, by omega,
      by unfold get_cell; rw [Nat.div_add_mod']; exact hd⟩
  · rintro ⟨row, col, hr, hc, rfl, hcell⟩
    exact ⟨by omega, hcell⟩

/-- C6: make_move_cpu rejects every illegal move (out of range 0..8 or onto a
non-empty cell) with a false flag and an unchanged board, and on a legal move
writes exactly the addressed cell with the player's marker and reports true. -/
theorem c6_make_move_cpu (S p : Nat) (m : Int) (hp : p = 1 ∨ p = 2) :
    (¬ (0 ≤ m ∧ m < 9 ∧ digit S m.toNat = 0) → make_move_cpu S p m = (false, S)) ∧
    ((0 ≤ m ∧ m < 9 ∧ digit S m.toNat = 0) →
      (make_move_cpu S p m).1 = true ∧
      digit (make_move_cpu S p m).2 m.toNat = p ∧
      ∀ j, j ≠ m.toNat → digit (make_move_cpu S p m).2 j = digit S j) := by
  have hp3 : p < 3 := by omega
  constructor
  · intro hill
    unfold make_move_cpu
    by_cases hrange : 0 ≤ m ∧ m < 9
    · have hne : digit S m.toNat ≠ 0 := by tauto
      have hcellarg : (m / 3).toNat * 3 + (m % 3).toNat = m.toNat := by omega
      have hv : is_valid_move S (m / 3) (m % 3) = false := by
        unfold is_valid_move get_cell
        rw [Bool.eq_false_iff]
        intro habs
        simp only [Bool.and_eq_true, decide_eq_true_eq, beq_iff_eq] at habs
        obtain ⟨-, hcell⟩ := habs
        rw [hcellarg] at hcell
        exact hne hcell
      rw [if_pos hrange, if_neg (by simp [hv])]
    · rw [if_neg hrange]
  · intro hleg
    obtain ⟨h0, h9, hd⟩ := hleg
    have hcellarg : (m / 3).toNat * 3 + (m % 3).toNat = m.toNat := by omega
    unfold make_move_cpu
    have hv : is_valid_move S (m / 3) (m % 3) = true := by
      unfold is_valid_move get_cell
      simp only [Bool.and_eq_true, decide_eq_true_eq, beq_iff_eq]
      refine ⟨⟨⟨⟨by omega, by omega⟩, by omega⟩, by omega⟩, ?_⟩
      rw [hcellarg]
      exact hd
    rw [if_pos ⟨h0, h9⟩, if_pos hv]
    refine ⟨rfl, ?_, ?_⟩
    · rw [set_cell_digit S _ _ p hp3, hcellarg, if_pos rfl]
    · intro j hj
      rw [set_cell_digit S _ _ p hp3, hcellarg, if_neg hj]

theorem c6_make_move_cpu_witness :
    ((1 : Nat) = 1 ∨ (1 : Nat) = 2) ∧
    ((0 : Int) ≤ 4 ∧ (4 : Int) < 9 ∧ digit 0 (4 : Int).toNat = 0) ∧
    (make_move_cpu 0 1 4).1 = true ∧ digit (make_move_cpu 0 1 4).2 (4 : Int).toNat = 1 ∧
    make_move_cpu 0 1 (-2) = (false, 0) := by
  have h := c6_make_move_cpu 0 1 4 (Or.inl rfl)
  have hleg : (0 : Int) ≤ 4 ∧ (4 : Int) < 9 ∧ digit 0 (4 : Int).toNat = 0 :=
    ⟨by norm_num, by norm_num, by decide⟩
  have h2 := c6_make_move_cpu 0 1 (-2) (Or.inl rfl)
  exact ⟨Or.inl rfl, hleg, (h.2 hleg).1, (h.2 hleg).2.1,
    h2.1 fun hc => absurd hc.1 (by norm_num)⟩

/- ---------------------------------------------------------------------
   Result detection (C4)
   --------------------------------------------------------------------- -/

theorem get_cell_lt (s r c : Nat) : get_cell s r c < 3 := digit_lt _ _

theorem lineDecided_iff (a b c : Nat) :
    lineDecided [a, b, c] = true ↔ a ≠ 0 ∧ b = a ∧ c = a := by
  rcases eq_or_ne b a with hb | hb <;> rcases eq_or_ne c a with hc | hc <;>
    simp [lineDecided, List.count_cons, hb, hc]

theorem find?_decided (s : Nat) (l : List Nat)
    (hfind : (linesOf s).find? lineDecided = some l) :
    (l.headD 0 = 1 ∨ l.headD 0 = 2) ∧ has_line s (l.headD 0) := by
  have hmem := List.mem_of_find?_eq_some hfind
  have hmem2 := List.mem_of_find?_eq_some hfind
  have hdec : lineDecided l = true := List.find?_some hfind
  simp only [linesOf, List.mem_cons, List.not_mem_nil, or_false] at hmem
  rcases hmem with rfl | rfl | rfl | rfl | rfl | rfl | rfl | rfl <;>
  · rw [lineDecided_iff] at hdec
    obtain ⟨h0, hb, hc⟩ := hdec
    simp only [List.headD_cons]
    constructor
    · have := get_cell_lt s 0 0
      have := get_cell_lt s 0 1
      have := get_cell_lt s 0 2
      have := get_cell_lt s 1 0
      have := get_cell_lt s 1 1
      have := get_cell_lt s 1 2
      have := get_cell_lt s 2 0
      have := get_cell_lt s 2 1
      have := get_cell_lt s 2 2
      omega
    · refine ⟨_, hmem2, ?_⟩
      intro x hx
      simp only [List.mem_cons, List.not_mem_nil, or_false] at hx
      rcases hx with rfl | rfl | rfl
      · rfl
      · exact hb
      · exact hc

theorem has_line_decided (s p : Nat) (hp : p ≠ 0) (h : has_line s p) :
    (linesOf s).find? lineDecided ≠ none := by
  obtain ⟨l, hl, hall⟩ := h
  intro hnone
  rw [List.find?_eq_none] at hnone
  have hnl := hnone l hl
  simp only [linesOf, List.mem_cons, List.not_mem_nil, or_false] at hl
  rcases hl with rfl | rfl | rfl | rfl | rfl | rfl | rfl | rfl <;>
  · apply hnl
    rw [lineDecided_iff]
    have h1 := hall _ (List.mem_cons_self _ _)
    have h2 := hall _ (List.mem_cons_of_mem _ (List.mem_cons_self _ _))
    have h3 := hall _
      (List.mem_cons_of_mem _ (List.mem_cons_of_mem _ (List.mem_cons_self _ _)))
    exact ⟨by rw [h1]; exact hp, by rw [h2, h1], by rw [h3, h1]⟩

theorem full_check_iff (s : Nat) :
    ((List.range 3).all fun r => (List.range 3).all fun c => get_cell s r c != 0) = true
      ↔ board_full s := by
  simp only [List.all_eq_true, List.mem_range, bne_iff_ne]
  constructor
  · intro h i hi
    have hrc := h (i / 3) (by omega) (i % 3) (by omega)
    unfold get_cell at hrc
    rwa [Nat.div_add_mod'] at hrc
  · intro h r hr c hc
    exact h (r * 3 + c) (by omega)

theorem find?_none_iff (s : Nat) :
    (linesOf s).find? lineDecided = none ↔ ¬ has_line s 1 ∧ ¬ has_line s 2 := by
  constructor
  · intro hnone
    constructor <;> intro h
    · exact has_line_decided s 1 (by norm_num) h hnone
    · exact has_line_decided s 2 (by norm_num) h hnone
  · rintro ⟨h1, h2⟩
    cases hfind : (linesOf s).find? lineDecided with
    | none => rfl
    | some l =>
      obtain ⟨hp, hline⟩ := find?_decided s l hfind
      rcases hp with hp | hp <;> rw [hp] at hline
      · exact absurd hline h1
      · exact absurd hline h2

/-- Full characterization of check_winner over arbitrary packed states. -/
theorem check_winner_spec (s : Nat) :
    ((¬ (has_line s 1 ∧ has_line s 2)) →
      (check_winner s = 1 ↔ has_line s 1) ∧ (check_winner s = 2 ↔ has_line s 2)) ∧
    (check_winner s = -1 ↔ ¬ has_line s 1 ∧ ¬ has_line s 2 ∧ board_full s) ∧
    (check_winner s = 0 ↔ ¬ has_line s 1 ∧ ¬ has_line s 2 ∧ ¬ board_full s) := by
  cases hfind : (linesOf s).find? lineDecided with
  | none =>
    have hnl := (find?_none_iff s).mp hfind
    have hval : check_winner s = if (List.range 3).all
        (fun r => (List.range 3).all fun c => get_cell s r c != 0) then -1 else 0 := by
      unfold check_winner
      rw [hfind]
    by_cases hfull : board_full s
    · rw [hval, if_pos ((full_check_iff s).mpr hfull)]
      refine ⟨fun _ => ⟨?_, ?_⟩, ?_, ?_⟩
      · constructor
        · intro h; exact absurd h (by norm_num)
        · intro h; exact absurd h hnl.1
      · constructor
        · intro h; exact absurd h (by norm_num)
        · intro h; exact absurd h hnl.2
      · exact ⟨fun _ => ⟨hnl.1, hnl.2, hfull⟩, fun _ => rfl⟩
      · constructor
        · intro h; exact absurd h (by norm_num)
        · rintro ⟨-, -, hnf⟩; exact absurd hfull hnf
    · rw [hval, if_neg fun hc => hfull ((full_check_iff s).mp hc)]
      refine ⟨fun _ => ⟨?_, ?_⟩, ?_, ?_⟩
      · constructor
        · intro h; exact absurd h (by norm_num)
        · intro h; exact absurd h hnl.1
      · constructor
        · intro h; exact absurd h (by norm_num)
        · intro h; exact absurd h hnl.2
      · constructor
        · intro h; exact absurd h (by norm_num)
        · rintro ⟨-, -, hf⟩; exact absurd hf (fun h => hfull h)
      · exact ⟨fun _ => ⟨hnl.1, hnl.2, hfull⟩, fun _ => rfl⟩
  | some l =>
    obtain ⟨hp, hline⟩ := find?_decided s l hfind
    have hval : check_winner s = ((l.headD 0 : Nat) : Int) := by
      unfold check_winner
      rw [hfind]
    rcases hp with hp | hp <;> rw [hp] at hline hval
    · -- X wins
      refine ⟨fun hnd => ⟨⟨fun _ => hline, fun _ => by rw [hval]; norm_num⟩, ?_⟩, ?_, ?_⟩
      · constructor
        · intro h; rw [hval] at h; norm_num at h
        · intro h2; exact absurd ⟨hline, h2⟩ hnd
      · constructor
        · intro h; rw [hval] at h; norm_num at h
        · rintro ⟨h1, -, -⟩; exact absurd hline h1
      · constructor
        · intro h; rw [hval] at h; norm_num at h
        · rintro ⟨h1, -, -⟩; exact absurd hline h1
    · -- O wins
      refine ⟨fun hnd => ⟨?_, ⟨fun _ => hline, fun _ => by rw [hval]; norm_num⟩⟩, ?_, ?_⟩
      · constructor
        · intro h; rw [hval] at h; norm_num at h
        · intro h1; exact absurd ⟨h1, hline⟩ hnd
      · constructor
        · intro h; rw [hval] at h; norm_num at h
        · rintro ⟨-, h2, -⟩; exact absurd hline h2
      · constructor
        · intro h; rw [hval] at h; norm_num at h
        · rintro ⟨-, h2, -⟩; exact absurd hline h2

/-- C4 counterexample: board 9503 has row 0 = [O,O,O] and row 2 = [X,X,X]
(reachable through make_move_cpu calls); its row-2 line is all marker 1, yet
check_winner 9503 is not 1 — it returns 2, the first decided line in scan
order — so the claimed equivalence "returns a win for p iff some line is all
p" is false at this board for p = 1. -/
theorem c4_counterexample : has_line 9503 1 ∧ check_winner 9503 ≠ 1 := by
  constructor
  · refine ⟨[get_cell 9503 2 0, get_cell 9503 2 1, get_cell 9503 2 2], by simp [linesOf], ?_⟩
    decide
  · decide

/-- C4 amended: on every board on which at most one marker completes a line
(true of all boards reached by alternating play stopped at the first terminal
result), check_winner returns marker p's win iff some line is all p; on every
board whatsoever it returns DRAW (-1) iff no line decides and no cell is
empty, and IN_PROGRESS (0) iff no line decides and an empty cell remains; and
the three concrete instances of the claim hold. -/
theorem c4_check_winner_amended (S : Nat) (hnd : ¬ (has_line S 1 ∧ has_line S 2)) :
    (check_winner S = 1 ↔ has_line S 1) ∧ (check_winner S = 2 ↔ has_line S 2) ∧
    (check_winner S = -1 ↔ ¬ has_line S 1 ∧ ¬ has_line S 2 ∧ board_full S) ∧
    (check_winner S = 0 ↔ ¬ has_line S 1 ∧ ¬ has_line S 2 ∧ ¬ board_full S) ∧
    check_winner 13 = 1 ∧ check_winner 17215 = -1 ∧ check_winner 0 = 0 := by
  obtain ⟨hwin, hdraw, hprog⟩ := check_winner_spec S
  exact ⟨(hwin hnd).1, (hwin hnd).2, hdraw, hprog, by decide, by decide, by decide⟩

theorem c4_check_winner_amended_witness :
    ¬ (has_line 13 1 ∧ has_line 13 2) ∧ (check_winner 13 = 1 ↔ has_line 13 1) := by
  have h := c4_check_winner_amended 13 (by decide)
  exact ⟨by decide, h.1⟩

/- ---------------------------------------------------------------------
   Dict lookup/assignment lemmas
   --------------------------------------------------------------------- -/

theorem qget_cons (e : (Nat × Nat) × (Int × Int)) (t : QTable) (k : Nat × Nat) :
    qget (e :: t) k = if e.1 = k then e.2 else qget t k := by
  unfold qget
  by_cases he : e.1 = k
  · rw [List.find?_cons_of_pos _ (by simp [he]), if_pos he]
  · rw [List.find?_cons_of_neg _ (by simp [he]), if_neg he]

theorem qget_map_replace_ne (q : QTable) (k k' : Nat × Nat) (v : Int × Int) (hne : k' ≠ k) :
    qget (q.map fun e => if e.1 == k then (k, v) else e) k' = qget q k' := by
  induction q with
  | nil => rfl
  | cons e t ih =>
    simp only [List.map_cons]
    rw [qget_cons, qget_cons]
    by_cases he : e.1 = k
    · have hh : (if (e.1 == k) = true then (k, v) else e) = (k, v) := by simp [he]
      rw [hh, if_neg (fun hc : k = k' => hne hc.symm),
        if_neg (fun hc : e.1 = k' => hne (by rw [← hc, he]))]
      exact ih
    · have hh : (if (e.1 == k) = true then (k, v) else e) = e := by simp [he]
      rw [hh]
      by_cases hek : e.1 = k'
      · rw [if_pos hek, if_pos hek]
      · rw [if_neg hek, if_neg hek]
        exact ih

theorem qget_map_replace_eq (q : QTable) (k : Nat × Nat) (v : Int × Int)
    (hany : (q.any fun e => e.1 == k) = true) :
    qget (q.map fun e => if e.1 == k then (k, v) else e) k = v := by
  induction q with
  | nil => simp at hany
  | cons e t ih =>
    simp only [List.map_cons]
    rw [qget_cons]
    by_cases he : e.1 = k
    · have hh : (if (e.1 == k) = true then (k, v) else e) = (k, v) := by simp [he]
      rw [hh, if_pos rfl]
    · have hh : (if (e.1 == k) = true then (k, v) else e) = e := by simp [he]
      rw [hh, if_neg he]
      apply ih
      simp only [List.any_cons, Bool.or_eq_true, beq_iff_eq] at hany
      rcases hany with hany | hany
      · exact absurd hany he
      · exact hany

theorem qget_append_not_found (q : QTable) (k k' : Nat × Nat) (v : Int × Int)
    (hnot : (q.any fun e => e.1 == k) = false) :
    qget (q ++ [(k, v)]) k' = if k' = k then v else qget q k' := by
  induction q with
  | nil =>
    simp only [List.nil_append]
    rw [qget_cons]
    by_cases hk : k' = k
    · rw [if_pos hk.symm, if_pos hk]
    · rw [if_neg (fun hc : k = k' => hk hc.symm), if_neg hk]
  | cons e t ih =>
    simp only [List.any_cons, Bool.or_eq_false_iff, beq_eq_false_iff_ne] at hnot
    simp only [List.cons_append]
    rw [qget_cons]
    by_cases hek : e.1 = k'
    · have hkk : k' ≠ k := fun hc => hnot.1 (by rw [hek, hc])
      rw [if_pos hek, if_neg hkk, qget_cons, if_pos hek]
    · rw [if_neg hek, ih (by simpa using hnot.2)]
      by_cases hk : k' = k
      · rw [if_pos hk, if_pos hk]
      · rw [if_neg hk, if_neg hk, qget_cons, if_neg hek]

theorem qget_qset (q : QTable) (k k' : Nat × Nat) (v : Int × Int) :
    qget (qset q k v) k' = if k' = k then v else qget q k' := by
  unfold qset
  by_cases hany : (q.any fun e => e.1 == k) = true
  · rw [if_pos hany]
    by_cases hk : k' = k
    · rw [if_pos hk, hk, qget_map_replace_eq q k v hany]
    · rw [if_neg hk, qget_map_replace_ne q k k' v hk]
  · rw [if_neg hany, qget_append_not_found q k k' v (Bool.eq_false_iff.mpr hany)]

/-- Per-key effect of one agent's reward loop: the key's total grows by
reward times its number of occurrences and its count by that number. -/
theorem apply_rewards_qget (keys : List (Nat × Nat)) (r : Int) :
    ∀ (q : QTable) (k : Nat × Nat),
      qget (apply_rewards q keys r) k =
        ((qget q k).1 + r * keys.count k, (qget q k).2 + keys.count k) := by
  induction keys with
  | nil =>
    intro q k
    simp [apply_rewards]
  | cons key rest ih =>
    intro q k
    have hstep : apply_rewards q (key :: rest) r =
        apply_rewards (qset q key ((qget q key).1 + r, (qget q key).2 + 1)) rest r := rfl
    rw [hstep, ih, qget_qset]
    by_cases hk : k = key
    · subst hk
      simp only [if_pos rfl, List.count_cons_self]
      rw [Prod.mk.injEq]
      constructor <;> push_cast <;> ring
    · simp only [if_neg hk, List.count_cons_of_ne (by simpa using hk)]

/- ---------------------------------------------------------------------
   Folded maxima and minima (Python max/min over nonempty lists)
   --------------------------------------------------------------------- -/

theorem le_foldl_max {α : Type} [LinearOrder α] (l : List α) (a : α) :
    a ≤ l.foldl max a := by
  induction l generalizing a with
  | nil => exact le_refl a
  | cons x t ih => exact le_trans (le_max_left a x) (ih (max a x))

theorem foldl_max_le_of_mem {α : Type} [LinearOrder α] (l : List α) :
    ∀ (a x : α), x ∈ l → x ≤ l.foldl max a := by
  induction l with
  | nil =>
    intro a x hx
    simp at hx
  | cons y t ih =>
    intro a x hx
    simp only [List.foldl_cons]
    rcases List.mem_cons.mp hx with rfl | hx
    · exact le_trans (le_max_right a x) (le_foldl_max t (max a x))
    · exact ih (max a y) x hx

theorem foldl_max_mem {α : Type} [LinearOrder α] (l : List α) :
    ∀ a, l.foldl max a = a ∨ l.foldl max a ∈ l := by
  induction l with
  | nil =>
    intro a
    left
    rfl
  | cons y t ih =>
    intro a
    simp only [List.foldl_cons]
    rcases ih (max a y) with h | h
    · rw [h]
      rcases max_choice a y with hm | hm
      · left; exact hm
      · right; rw [hm]; exact List.mem_cons_self y t
    · right
      exact List.mem_cons_of_mem y h

theorem listMax_mem {α : Type} [LinearOrder α] (l : List α) (d : α) (h : l ≠ []) :
    listMax l d ∈ l := by
  match l, h with
  | x :: t, _ =>
    unfold listMax
    simp only [List.headD_cons]
    rcases foldl_max_mem (x :: t) x with h1 | h1
    · rw [h1]; exact List.mem_cons_self x t
    · exact h1

theorem le_listMax {α : Type} [LinearOrder α] (l : List α) (d : α) (x : α) (hx : x ∈ l) :
    x ≤ listMax l d :=
  foldl_max_le_of_mem l _ x hx

theorem foldl_min_le {α : Type} [LinearOrder α] (l : List α) (a : α) :
    l.foldl min a ≤ a := by
  induction l generalizing a with
  | nil => exact le_refl a
  | cons x t ih => exact le_trans (ih (min a x)) (min_le_left a x)

theorem foldl_min_le_of_mem {α : Type} [LinearOrder α] (l : List α) :
    ∀ (a x : α), x ∈ l → l.foldl min a ≤ x := by
  induction l with
  | nil =>
    intro a x hx
    simp at hx
  | cons y t ih =>
    intro a x hx
    simp only [List.foldl_cons]
    rcases List.mem_cons.mp hx with rfl | hx
    · exact le_trans (foldl_min_le t (min a x)) (min_le_right a x)
    · exact ih (min a y) x hx

theorem foldl_min_mem {α : Type} [LinearOrder α] (l : List α) :
    ∀ a, l.foldl min a = a ∨ l.foldl min a ∈ l := by
  induction l with
  | nil =>
    intro a
    left
    rfl
  | cons y t ih =>
    intro a
    simp only [List.foldl_cons]
    rcases ih (min a y) with h | h
    · rw [h]
      rcases min_choice a y with hm | hm
      · left; exact hm
      · right; rw [hm]; exact List.mem_cons_self y t
    · right
      exact List.mem_cons_of_mem y h

theorem listMin_mem {α : Type} [LinearOrder α] (l : List α) (d : α) (h : l ≠ []) :
    listMin l d ∈ l := by
  match l, h with
  | x :: t, _ =>
    unfold listMin
    simp only [List.headD_cons]
    rcases foldl_min_mem (x :: t) x with h1 | h1
    · rw [h1]; exact List.mem_cons_self x t
    · exact h1

theorem listMin_le {α : Type} [LinearOrder α] (l : List α) (d : α) (x : α) (hx : x ∈ l) :
    listMin l d ≤ x :=
  foldl_min_le_of_mem l _ x hx

theorem choiceOf_mem (l : List Nat) (n : Nat) (h : l ≠ []) : choiceOf l n ∈ l := by
  unfold choiceOf
  have hlen : 0 < l.length := List.length_pos.mpr h
  have hidx : n % l.length < l.length := Nat.mod_lt n hlen
  rw [List.getD_eq_getElem l 0 hidx]
  exact List.getElem_mem hidx

/- ---------------------------------------------------------------------
   The exploitation branch (C3)
   --------------------------------------------------------------------- -/

theorem best_moves_eq (s : Nat) (q : QTable) :
    best_moves s q = ((best1_of s q).filter fun x => x.1 == max_count_of s q).map
      fun x => x.2 := rfl

theorem mem_q_avgs (s : Nat) (q : QTable) (y : ℚ × Int × Nat) :
    y ∈ q_avgs s q ↔ ∃ m ∈ get_valid_moves s, y = (qavg q s m, qcount q s m, m) := by
  simp only [q_avgs, List.mem_map]
  constructor
  · rintro ⟨m, hm, rfl⟩
    exact ⟨m, hm, rfl⟩
  · rintro ⟨m, hm, rfl⟩
    exact ⟨m, hm, rfl⟩

theorem qavg_le_max_avg (s : Nat) (q : QTable) (m : Nat) (hm : m ∈ get_valid_moves s) :
    qavg q s m ≤ max_avg_of s q :=
  le_listMax _ _ _ (List.mem_map.mpr ⟨(qavg q s m, qcount q s m, m),
    (mem_q_avgs s q _).mpr ⟨m, hm, rfl⟩, rfl⟩)

theorem mem_best1 (s : Nat) (q : QTable) (x : Int × Nat) :
    x ∈ best1_of s q ↔ ∃ m ∈ get_valid_moves s,
      qavg q s m = max_avg_of s q ∧ x = (qcount q s m, m) := by
  simp only [best1_of, List.mem_map, List.mem_filter]
  constructor
  · rintro ⟨y, ⟨hy, hbeq⟩, rfl⟩
    obtain ⟨m, hm, rfl⟩ := (mem_q_avgs s q y).mp hy
    exact ⟨m, hm, by simpa using hbeq, rfl⟩
  · rintro ⟨m, hm, havg, rfl⟩
    exact ⟨(qavg q s m, qcount q s m, m),
      ⟨(mem_q_avgs s q _).mpr ⟨m, hm, rfl⟩, by simpa using havg⟩, rfl⟩

theorem qcount_le_max_count (s : Nat) (q : QTable) (m : Nat)
    (hm : m ∈ get_valid_moves s) (ha : qavg q s m = max_avg_of s q) :
    qcount q s m ≤ max_count_of s q :=
  le_listMax _ _ _ (List.mem_map.mpr ⟨(qcount q s m, m),
    (mem_best1 s q _).mpr ⟨m, hm, ha, rfl⟩, rfl⟩)

theorem mem_best_moves (s : Nat) (q : QTable) (m : Nat) :
    m ∈ best_moves s q ↔ m ∈ get_valid_moves s ∧
      qavg q s m = max_avg_of s q ∧ qcount q s m = max_count_of s q := by
  rw [best_moves_eq]
  simp only [List.mem_map, List.mem_filter]
  constructor
  · rintro ⟨x, ⟨hx, hbeq⟩, rfl⟩
    obtain ⟨m0, hm0, havg, rfl⟩ := (mem_best1 s q x).mp hx
    exact ⟨hm0, havg, by simpa using hbeq⟩
  · rintro ⟨hm, havg, hcount⟩
    exact ⟨(qcount q s m, m), ⟨(mem_best1 s q _).mpr ⟨m, hm, havg, rfl⟩,
      by simpa using hcount⟩, rfl⟩

theorem max_avg_attained (s : Nat) (q : QTable) (h : get_valid_moves s ≠ []) :
    ∃ m ∈ get_valid_moves s, qavg q s m = max_avg_of s q := by
  have hne : (q_avgs s q).map (fun x => x.1) ≠ [] := by
    simp only [ne_eq, List.map_eq_nil_iff, q_avgs]
    exact h
  have hmem := listMax_mem _ 0 hne
  simp only [List.mem_map] at hmem
  obtain ⟨y, hy, hy1⟩ := hmem
  obtain ⟨m, hm, rfl⟩ := (mem_q_avgs s q y).mp hy
  exact ⟨m, hm, hy1⟩

theorem max_count_attained (s : Nat) (q : QTable) (h : get_valid_moves s ≠ []) :
    ∃ m ∈ get_valid_moves s, qavg q s m = max_avg_of s q ∧
      qcount q s m = max_count_of s q := by
  obtain ⟨m0, hm0, ha0⟩ := max_avg_attained s q h
  have hne : (best1_of s q).map (fun x => x.1) ≠ [] := by
    intro habs
    rw [List.map_eq_nil_iff] at habs
    exact (List.ne_nil_of_mem ((mem_best1 s q _).mpr ⟨m0, hm0, ha0, rfl⟩)) habs
  have hmem := listMax_mem _ 0 hne
  simp only [List.mem_map] at hmem
  obtain ⟨x, hx, hx1⟩ := hmem
  obtain ⟨m, hm, havg, rfl⟩ := (mem_best1 s q x).mp hx
  exact ⟨m, hm, havg, hx1⟩

theorem best_moves_ne (s : Nat) (q : QTable) (h : get_valid_moves s ≠ []) :
    best_moves s q ≠ [] := by
  obtain ⟨m, hm, havg, hcount⟩ := max_count_attained s q h
  exact List.ne_nil_of_mem ((mem_best_moves s q m).mpr ⟨hm, havg, hcount⟩)

/-- In the fully deterministic greedy mode (gen = 3, epsilon = 0, a table
supplied), the exploration test never fires (random.random() is nonnegative)
and the tie-break takes the minimum of best_moves. -/
theorem gasm_greedy_eq (S : Nat) (q : QTable) (ctx : MoveCtx) (hist : List (Nat × Nat))
    (hrand : 0 ≤ ctx.rand) :
    (get_and_save_move S 3 (some q) 0 ctx hist).1 = listMin (best_moves S q) 0 := by
  have h1 : (((3 : Nat) == 1) || (some q).isNone || decide (ctx.rand < (0 : ℚ))) = false := by
    simp [hrand.not_lt]
  have h2 : (((3 : Nat) == 3) && ((0 : ℚ) == 0)) = true := by decide
  unfold get_and_save_move
  simp only [h1, h2, Bool.false_eq_true, if_false, if_true, Option.getD_some]

theorem gasm_snd (S gen : Nat) (qv : Option QTable) (eps : ℚ) (ctx : MoveCtx)
    (hist : List (Nat × Nat)) :
    (get_and_save_move S gen qv eps ctx hist).2 =
      hist ++ [canonicalize_state_action S (get_and_save_move S gen qv eps ctx hist).1] :=
  rfl

theorem gasm_mem (S gen : Nat) (qv : Option QTable) (eps : ℚ) (ctx : MoveCtx)
    (hist : List (Nat × Nat)) (h : get_valid_moves S ≠ []) :
    (get_and_save_move S gen qv eps ctx hist).1 ∈ get_valid_moves S := by
  unfold get_and_save_move
  dsimp only
  by_cases h1 : ((gen == 1) || qv.isNone || decide (ctx.rand < eps)) = true
  · rw [if_pos h1]
    exact choiceOf_mem _ _ h
  · rw [if_neg h1]
    by_cases h2 : ((gen == 3) && (eps == 0)) = true
    · rw [if_pos h2]
      exact ((mem_best_moves S _ _).mp
        (listMin_mem _ 0 (best_moves_ne S (qv.getD []) h))).1
    · rw [if_neg h2]
      exact ((mem_best_moves S _ _).mp
        (choiceOf_mem _ _ (best_moves_ne S (qv.getD []) h))).1

/-- C3: in the fully deterministic greedy mode (gen = 3, epsilon = 0, table
supplied), the selected move is a legal move of maximal average reward
(sum/count when count > 0, else 0, absent keys defaulting to (0,0)); among
average-ties it has maximal count, and among remaining ties it is the
smallest move index. -/
theorem c3_deterministic_greedy (S : Nat) (q : QTable) (ctx : MoveCtx)
    (hist : List (Nat × Nat)) (hrand : 0 ≤ ctx.rand) (hmoves : get_valid_moves S ≠ []) :
    (get_and_save_move S 3 (some q) 0 ctx hist).1 ∈ get_valid_moves S ∧
    (∀ m2 ∈ get_valid_moves S,
      qavg q S m2 ≤ qavg q S (get_and_save_move S 3 (some q) 0 ctx hist).1) ∧
    (∀ m2 ∈ get_valid_moves S,
      qavg q S m2 = qavg q S (get_and_save_move S 3 (some q) 0 ctx hist).1 →
      qcount q S m2 ≤ qcount q S (get_and_save_move S 3 (some q) 0 ctx hist).1) ∧
    (∀ m2 ∈ get_valid_moves S,
      qavg q S m2 = qavg q S (get_and_save_move S 3 (some q) 0 ctx hist).1 →
      qcount q S m2 = qcount q S (get_and_save_move S 3 (some q) 0 ctx hist).1 →
      (get_and_save_move S 3 (some q) 0 ctx hist).1 ≤ m2) := by
  rw [gasm_greedy_eq S q ctx hist hrand]
  have hmv := (mem_best_moves S q _).mp (listMin_mem _ 0 (best_moves_ne S q hmoves))
  obtain ⟨hmem, havg, hcount⟩ := hmv
  refine ⟨hmem, ?_, ?_, ?_⟩
  · intro m2 hm2
    rw [havg]
    exact qavg_le_max_avg S q m2 hm2
  · intro m2 hm2 ha
    rw [hcount]
    exact qcount_le_max_count S q m2 hm2 (by rw [ha, havg])
  · intro m2 hm2 ha hc
    exact listMin_le _ 0 m2 ((mem_best_moves S q m2).mpr
      ⟨hm2, by rw [ha, havg], by rw [hc, hcount]⟩)

theorem tie_table_keys :
    canonicalize_state_action 489 0 = (33, 6) ∧ canonicalize_state_action 489 4 = (33, 4) := by
  decide

theorem tie_avg0 : qavg tie_table 489 0 = 1 / 2 := by
  unfold qavg qtotal qcount
  rw [show canonicalize_state_action 489 0 = (33, 6) from by decide,
    show qget tie_table (33, 6) = (1, 2) from by decide]
  norm_num

theorem tie_avg4 : qavg tie_table 489 4 = 1 / 2 := by
  unfold qavg qtotal qcount
  rw [show canonicalize_state_action 489 4 = (33, 4) from by decide,
    show qget tie_table (33, 4) = (1, 2) from by decide]
  norm_num

theorem tie_avg_zero : ∀ m, m = 2 ∨ m = 3 ∨ m = 6 ∨ m = 7 ∨ m = 8 →
    qavg tie_table 489 m = 0 ∧ qcount tie_table 489 m = 0 := by
  intro m hm
  have hcnt : qcount tie_table 489 m = 0 := by
    rcases hm with rfl | rfl | rfl | rfl | rfl <;> decide
  refine ⟨?_, hcnt⟩
  unfold qavg
  rw [hcnt]
  norm_num

theorem tie_q_avgs : q_avgs 489 tie_table =
    [(1 / 2, 2, 0), (0, 0, 2), (0, 0, 3), (1 / 2, 2, 4), (0, 0, 6), (0, 0, 7), (0, 0, 8)] := by
  unfold q_avgs
  rw [show get_valid_moves 489 = [0, 2, 3, 4, 6, 7, 8] from by decide]
  simp only [List.map_cons, List.map_nil, tie_avg0, tie_avg4,
    (tie_avg_zero 2 (by norm_num)).1, (tie_avg_zero 2 (by norm_num)).2,
    (tie_avg_zero 3 (by norm_num)).1, (tie_avg_zero 3 (by norm_num)).2,
    (tie_avg_zero 6 (by norm_num)).1, (tie_avg_zero 6 (by norm_num)).2,
    (tie_avg_zero 7 (by norm_num)).1, (tie_avg_zero 7 (by norm_num)).2,
    (tie_avg_zero 8 (by norm_num)).1, (tie_avg_zero 8 (by norm_num)).2,
    show qcount tie_table 489 0 = 2 from by decide,
    show qcount tie_table 489 4 = 2 from by decide]

theorem tie_max_avg : max_avg_of 489 tie_table = 1 / 2 := by
  unfold max_avg_of listMax
  rw [tie_q_avgs]
  simp only [List.map_cons, List.map_nil, List.headD_cons, List.foldl_cons, List.foldl_nil]
  norm_num [max_def]

theorem tie_best1 : best1_of 489 tie_table = [(2, 0), (2, 4)] := by
  unfold best1_of
  rw [tie_q_avgs, tie_max_avg]
  have hT : (((1 : ℚ) / 2) == 1 / 2) = true := by rw [beq_iff_eq]
  have hF : ((0 : ℚ) == 1 / 2) = false := by
    rw [beq_eq_false_iff_ne]
    norm_num
  simp [List.filter_cons, hT, hF]

theorem tie_max_count : max_count_of 489 tie_table = 2 := by
  unfold max_count_of listMax
  rw [tie_best1]
  norm_num [max_def]

theorem tie_best_moves : best_moves 489 tie_table = [0, 4] := by
  rw [best_moves_eq, tie_best1, tie_max_count]
  decide

theorem c3_deterministic_greedy_witness :
    (0 : ℚ) ≤ (⟨0, 0⟩ : MoveCtx).rand ∧ get_valid_moves 489 ≠ [] ∧
    (get_and_save_move 489 3 (some tie_table) 0 ⟨0, 0⟩ []).1 ∈ get_valid_moves 489 ∧
    (get_and_save_move 489 3 (some tie_table) 0 ⟨0, 0⟩ []).1 = 0 := by
  refine ⟨le_refl 0, by decide, ?_, ?_⟩
  · exact (c3_deterministic_greedy 489 tie_table ⟨0, 0⟩ [] (le_refl 0) (by decide)).1
  · rw [gasm_greedy_eq 489 tie_table ⟨0, 0⟩ [] (le_refl 0), tie_best_moves]
    decide

/- ---------------------------------------------------------------------
   Move application and empty-cell counting for the game loop
   --------------------------------------------------------------------- -/

theorem is_valid_move_eq (b i : Nat) (h9 : i < 9) :
    is_valid_move b ((i : Int) / 3) ((i : Int) % 3) = (digit b i == 0) := by
  unfold is_valid_move get_cell
  have h1 : ((i : Int) / 3).toNat = i / 3 := by omega
  have h2 : ((i : Int) % 3).toNat = i % 3 := by omega
  rw [h1, h2, Nat.div_add_mod',
    decide_eq_true (by omega : (0 : Int) ≤ (i : Int) / 3),
    decide_eq_true (by omega : ((i : Int) / 3) < 3),
    decide_eq_true (by omega : (0 : Int) ≤ (i : Int) % 3),
    decide_eq_true (by omega : ((i : Int) % 3) < 3)]
  simp only [Bool.true_and]

theorem emptyCnt_eq_countP (b : Nat) :
    emptyCnt b = (List.range 9).countP fun i => digit b i == 0 := by
  unfold emptyCnt get_valid_moves
  rw [List.countP_eq_length_filter,
    List.filter_congr fun i hi => is_valid_move_eq b i (List.mem_range.mp hi)]

theorem make_move_cpu_legal (b p m : Nat) (h9 : m < 9) (hd : digit b m = 0) :
    make_move_cpu b p (m : Int) = (true, set_cell b (m / 3) (m % 3) p) := by
  unfold make_move_cpu
  rw [if_pos ⟨by omega, by exact_mod_cast h9⟩,
    if_pos (by rw [is_valid_move_eq b m h9]; simpa using hd)]
  have e1 : ((m : Int) / 3).toNat = m / 3 := by omega
  have e2 : ((m : Int) % 3).toNat = m % 3 := by omega
  rw [e1, e2]

theorem make_move_cpu_stuck (b p : Nat) (m : Int) (h : get_valid_moves b = []) :
    (make_move_cpu b p m).2 = b := by
  have hfull : ∀ i, i < 9 → digit b i ≠ 0 := by
    intro i hi hz
    have hm : i ∈ get_valid_moves b := (mem_get_valid_moves b i).mpr ⟨hi, hz⟩
    rw [h] at hm
    exact absurd hm (List.not_mem_nil i)
  unfold make_move_cpu
  by_cases hr : 0 ≤ m ∧ m < 9
  · rw [if_pos hr]
    have hv : is_valid_move b (m / 3) (m % 3) = false := by
      have hm9 : m.toNat < 9 := by omega
      have hmm : (m.toNat : Int) = m := by omega
      rw [← hmm, is_valid_move_eq b m.toNat hm9]
      simpa using hfull m.toNat hm9
    rw [if_neg (by simp [hv])]
  · rw [if_neg hr]

theorem check_winner_ne_zero_of_full (b : Nat) (h : get_valid_moves b = []) :
    check_winner b ≠ 0 := by
  have hfull : board_full b := by
    intro i hi hz
    have hm : i ∈ get_valid_moves b := (mem_get_valid_moves b i).mpr ⟨hi, hz⟩
    rw [h] at hm
    exact absurd hm (List.not_mem_nil i)
  intro h0
  exact ((check_winner_spec b).2.2.mp h0).2.2 hfull

theorem moves_ne_of_in_progress (b : Nat) (h : check_winner b = 0) :
    get_valid_moves b ≠ [] :=
  fun hnil => check_winner_ne_zero_of_full b hnil h

theorem countP_and_ne (l : List Nat) (p : Nat → Bool) (m : Nat) :
    l.Nodup → m ∈ l → p m = true →
    (l.countP fun i => p i && !(i == m)) = l.countP p - 1 := by
  induction l with
  | nil =>
    intro _ hm
    simp at hm
  | cons a t ih =>
    intro hnd hm hpm
    rw [List.countP_cons, List.countP_cons]
    rcases List.mem_cons.mp hm with rfl | hm'
    · have hmt : m ∉ t := (List.nodup_cons.mp hnd).1
      have heq : (t.countP fun i => p i && !(i == m)) = t.countP p := by
        apply List.countP_congr
        intro i hi
        have : i ≠ m := fun hc => hmt (hc ▸ hi)
        simp [this]
      rw [heq]
      simp [hpm]
    · have ham : a ≠ m := fun hc => (List.nodup_cons.mp hnd).1 (hc ▸ hm')
      have hcp : 0 < t.countP p := by
        rw [List.countP_pos_iff]
        exact ⟨m, hm', hpm⟩
      have ihh := ih (List.nodup_cons.mp hnd).2 hm' hpm
      have hh : (p a && !(a == m)) = p a := by
        rw [beq_eq_false_iff_ne.mpr ham]
        simp
      rw [hh, ihh]
      omega

theorem emptyCnt_set (b m p : Nat) (h9 : m < 9) (hd : digit b m = 0)
    (hp : p ≠ 0) (hp3 : p < 3) :
    emptyCnt (set_cell b (m / 3) (m % 3) p) = emptyCnt b - 1 := by
  rw [emptyCnt_eq_countP, emptyCnt_eq_countP]
  have hpt : ∀ i ∈ List.range 9,
      (digit (set_cell b (m / 3) (m % 3) p) i == 0) = ((digit b i == 0) && !(i == m)) := by
    intro i _
    rw [set_cell_digit b _ _ p hp3 i, Nat.div_add_mod']
    by_cases him : i = m
    · subst him
      simp [hp, hd]
    · simp [him]
  rw [List.countP_congr fun i hi => by rw [hpt i hi]]
  exact countP_and_ne (List.range 9) _ m (List.nodup_range 9)
    (List.mem_range.mpr h9) (by simpa using hd)

theorem emptyCnt_pos_of_ne (b : Nat) (h : get_valid_moves b ≠ []) : 1 ≤ emptyCnt b :=
  List.length_pos.mpr h

/- ---------------------------------------------------------------------
   Game loop: termination (C10), frame (C8), per-key accounting (C2, C7)
   --------------------------------------------------------------------- -/

theorem play_loop_succ (gen : Nat) (eps : ℚ) (q : QTable) (ctx : Nat → MoveCtx)
    (fuel ply : Nat) (cur : Bool) (board : Nat) (h1 h2 : List (Nat × Nat)) :
    play_loop gen eps q ctx (fuel + 1) ply cur board h1 h2 =
      if check_winner (make_move_cpu board (if cur then 1 else 2)
          ((get_and_save_move board gen (some q) eps (ctx ply)
            (if cur then h1 else h2)).1 : Int)).2 ≠ 0 then
        some ((make_move_cpu board (if cur then 1 else 2)
            ((get_and_save_move board gen (some q) eps (ctx ply)
              (if cur then h1 else h2)).1 : Int)).2,
          (if cur then (get_and_save_move board gen (some q) eps (ctx ply)
              (if cur then h1 else h2)).2 else h1),
          (if cur then h2 else (get_and_save_move board gen (some q) eps (ctx ply)
              (if cur then h1 else h2)).2),
          check_winner (make_move_cpu board (if cur then 1 else 2)
            ((get_and_save_move board gen (some q) eps (ctx ply)
              (if cur then h1 else h2)).1 : Int)).2)
      else
        play_loop gen eps q ctx fuel (ply + 1) (!cur)
          (make_move_cpu board (if cur then 1 else 2)
            ((get_and_save_move board gen (some q) eps (ctx ply)
              (if cur then h1 else h2)).1 : Int)).2
          (if cur then (get_and_save_move board gen (some q) eps (ctx ply)
              (if cur then h1 else h2)).2 else h1)
          (if cur then h2 else (get_and_save_move board gen (some q) eps (ctx ply)
              (if cur then h1 else h2)).2) := rfl

theorem play_loop_isSome (gen : Nat) (eps : ℚ) (q : QTable) (ctx : Nat → MoveCtx) :
    ∀ fuel ply cur board h1 h2, emptyCnt board ≤ fuel → 1 ≤ fuel →
      (play_loop gen eps q ctx fuel ply cur board h1 h2).isSome = true := by
  intro fuel
  induction fuel with
  | zero =>
    intro ply cur board h1 h2 hle hf
    omega
  | succ f ih =>
    intro ply cur board h1 h2 hle hf
    rw [play_loop_succ]
    set picked := get_and_save_move board gen (some q) eps (ctx ply)
      (if cur then h1 else h2) with hpicked
    set b2 := (make_move_cpu board (if cur then 1 else 2) (picked.1 : Int)).2 with hb2
    by_cases hres : check_winner b2 ≠ 0
    · rw [if_pos hres]
      rfl
    · rw [if_neg hres]
      push_neg at hres
      by_cases hmv : get_valid_moves board = []
      · exfalso
        have hb : b2 = board := by rw [hb2]; exact make_move_cpu_stuck board _ _ hmv
        rw [hb] at hres
        exact check_winner_ne_zero_of_full board hmv hres
      · have hmem := gasm_mem board gen (some q) eps (ctx ply) (if cur then h1 else h2) hmv
        obtain ⟨hm9, hmd⟩ := (mem_get_valid_moves board picked.1).mp hmem
        have hpne : (if cur then 1 else 2) ≠ 0 := by cases cur <;> simp
        have hp3 : (if cur then 1 else 2) < 3 := by cases cur <;> simp
        have hmk := make_move_cpu_legal board (if cur then 1 else 2) picked.1 hm9 hmd
        have hb : b2 = set_cell board (picked.1 / 3) (picked.1 % 3)
            (if cur then 1 else 2) := by
          rw [hb2, hmk]
        have hcnt : emptyCnt b2 = emptyCnt board - 1 := by
          rw [hb]
          exact emptyCnt_set board picked.1 _ hm9 hmd hpne hp3
        have h1b : 1 ≤ emptyCnt board := emptyCnt_pos_of_ne board hmv
        have h1b2 : 1 ≤ emptyCnt b2 :=
          emptyCnt_pos_of_ne b2 (moves_ne_of_in_progress b2 hres)
        exact ih (ply + 1) (!cur) b2 _ _ (by omega) (by omega)

/-- C10: simulate_game always terminates — from the fresh empty board every
iteration plays one legal move, the number of empty cells strictly decreases,
and check_winner turns nonzero within at most 9 plies, so fuel 9 suffices for
every oracle, mode and table. -/
theorem c10_simulate_game_terminates (q : QTable) (win_loss draws gen : Nat) (eps : ℚ)
    (learn : Bool) (ctx : Nat → MoveCtx) :
    (simulate_game q win_loss draws gen eps learn ctx 9).isSome = true := by
  unfold simulate_game
  have hloop := play_loop_isSome gen eps q ctx 9 0 true 0 [] []
    (by decide) (by norm_num)
  cases hl : play_loop gen eps q ctx 9 0 true 0 [] [] with
  | none => rw [hl] at hloop; cases hloop
  | some r =>
    obtain ⟨b, hh1, hh2, hres⟩ := r
    rfl

/-- C8: with learning disabled, a completed simulate_game call returns the
table it was given — no entry is added, removed or modified. -/
theorem c8_eval_does_not_touch_table (q : QTable) (win_loss draws gen : Nat) (eps : ℚ)
    (ctx : Nat → MoveCtx) (fuel : Nat) (q' : QTable) (w' d' : Nat)
    (h1 h2 : List (Nat × Nat)) (res : Int)
    (hsim : simulate_game q win_loss draws gen eps false ctx fuel =
      some (q', w', d', h1, h2, res)) :
    q' = q := by
  unfold simulate_game at hsim
  cases hloop : play_loop gen eps q ctx fuel 0 true 0 [] [] with
  | none =>
    rw [hloop] at hsim
    cases hsim
  | some r =>
    obtain ⟨b, hh1, hh2, hres⟩ := r
    rw [hloop] at hsim
    simp only [Bool.false_eq_true, if_false] at hsim
    have := Option.some.inj hsim
    rw [Prod.mk.injEq] at this
    exact this.1.symm

/-- Per-key accounting of a completed simulate_game call: with learning on,
key k's total grows by reward1 times its occurrences in cpu1's history plus
reward2 times its occurrences in cpu2's history, and its count by the total
number of occurrences; with learning off nothing changes. -/
theorem simulate_game_qget (q : QTable) (win_loss draws gen : Nat) (eps : ℚ)
    (learn : Bool) (ctx : Nat → MoveCtx) (fuel : Nat) (q' : QTable) (w' d' : Nat)
    (h1 h2 : List (Nat × Nat)) (res : Int)
    (hsim : simulate_game q win_loss draws gen eps learn ctx fuel =
      some (q', w', d', h1, h2, res)) (k : Nat × Nat) :
    qget q' k = if learn then
      ((qget q k).1 + (rewardsOf res).1 * h1.count k + (rewardsOf res).2 * h2.count k,
       (qget q k).2 + h1.count k + h2.count k)
    else qget q k := by
  unfold simulate_game at hsim
  cases hloop : play_loop gen eps q ctx fuel 0 true 0 [] [] with
  | none =>
    rw [hloop] at hsim
    cases hsim
  | some r =>
    obtain ⟨b, hh1, hh2, hres⟩ := r
    rw [hloop] at hsim
    have hinj := Option.some.inj hsim
    simp only [Prod.mk.injEq] at hinj
    obtain ⟨hq, -, -, hd1, he2, hf⟩ := hinj
    subst hd1
    subst he2
    subst hf
    rw [← hq]
    cases learn
    · rfl
    · rw [if_pos rfl, if_pos rfl, apply_rewards_qget, apply_rewards_qget, Prod.mk.injEq]
      constructor <;> ring

theorem rewardsOf_fst (res : Int) :
    (rewardsOf res).1 = if res = -1 then 0 else if res = 1 then 1 else -1 := by
  unfold rewardsOf
  by_cases e1 : res = -1 <;> by_cases e2 : res = 1 <;> simp [e1, e2]

theorem rewardsOf_snd (res : Int) :
    (rewardsOf res).2 = if res = -1 then 0 else if res = 1 then -1 else 1 := by
  unfold rewardsOf
  by_cases e1 : res = -1 <;> by_cases e2 : res = 1 <;> simp [e1, e2]

theorem rewardsOf_bounds (res : Int) :
    -1 ≤ (rewardsOf res).1 ∧ (rewardsOf res).1 ≤ 1 ∧
    -1 ≤ (rewardsOf res).2 ∧ (rewardsOf res).2 ≤ 1 := by
  rw [rewardsOf_fst, rewardsOf_snd]
  by_cases e1 : res = -1 <;> by_cases e2 : res = 1 <;> simp [e1, e2]

/-- C7: the table invariant (count ≥ 0, sum in [-count, +count]) holds for the
empty table and is preserved by every completed simulate_game call, learning
on or off. -/
theorem c7_table_invariant :
    table_inv [] ∧
    ∀ (q : QTable) (win_loss draws gen : Nat) (eps : ℚ) (learn : Bool)
      (ctx : Nat → MoveCtx) (fuel : Nat) (q' : QTable) (w' d' : Nat)
      (h1 h2 : List (Nat × Nat)) (res : Int),
      table_inv q →
      simulate_game q win_loss draws gen eps learn ctx fuel =
        some (q', w', d', h1, h2, res) →
      table_inv q' := by
  constructor
  · intro k
    simp [qget]
  · intro q w d gen eps learn ctx fuel q' w' d' h1 h2 res hinv hsim k
    have hk := simulate_game_qget q w d gen eps learn ctx fuel q' w' d' h1 h2 res hsim k
    obtain ⟨hc, hl, hr⟩ := hinv k
    obtain ⟨hb1, hb2, hb3, hb4⟩ := rewardsOf_bounds res
    cases learn
    · rw [hk]
      exact hinv k
    · rw [hk, if_pos rfl]
      have hc1 : (0 : Int) ≤ (h1.count k : Int) := Int.ofNat_nonneg _
      have hc2 : (0 : Int) ≤ (h2.count k : Int) := Int.ofNat_nonneg _
      have hm1lo : -((h1.count k : Int)) ≤ (rewardsOf res).1 * h1.count k := by
        calc -((h1.count k : Int)) = (-1) * h1.count k := by ring
          _ ≤ (rewardsOf res).1 * h1.count k := mul_le_mul_of_nonneg_right hb1 hc1
      have hm1hi : (rewardsOf res).1 * h1.count k ≤ h1.count k := by
        calc (rewardsOf res).1 * (h1.count k : Int) ≤ 1 * h1.count k :=
              mul_le_mul_of_nonneg_right hb2 hc1
          _ = h1.count k := one_mul _
      have hm2lo : -((h2.count k : Int)) ≤ (rewardsOf res).2 * h2.count k := by
        calc -((h2.count k : Int)) = (-1) * h2.count k := by ring
          _ ≤ (rewardsOf res).2 * h2.count k := mul_le_mul_of_nonneg_right hb3 hc2
      have hm2hi : (rewardsOf res).2 * h2.count k ≤ h2.count k := by
        calc (rewardsOf res).2 * (h2.count k : Int) ≤ 1 * h2.count k :=
              mul_le_mul_of_nonneg_right hb4 hc2
          _ = h2.count k := one_mul _
      refine ⟨by dsimp only; linarith, by dsimp only; linarith, by dsimp only; linarith⟩

theorem c7_table_invariant_witness :
    table_inv ([] : QTable) ∧
    simulate_game [] 0 0 1 0 true (fun _ => ⟨0, 0⟩) 9 =
      some ([((0, 0), (1, 1)), ((7, 2), (1, 1)), ((70, 4), (1, 1)), ((637, 6), (1, 1)),
        ((1, 1), (-1, 1)), ((16, 3), (-1, 1)), ((151, 5), (-1, 1))],
        1, 0, [(0, 0), (7, 2), (70, 4), (637, 6)], [(1, 1), (16, 3), (151, 5)], 1) ∧
    table_inv [((0, 0), (1, 1)), ((7, 2), (1, 1)), ((70, 4), (1, 1)), ((637, 6), (1, 1)),
        ((1, 1), (-1, 1)), ((16, 3), (-1, 1)), ((151, 5), (-1, 1))] := by
  have hempty : table_inv ([] : QTable) := c7_table_invariant.1
  have hsim : simulate_game [] 0 0 1 0 true (fun _ => ⟨0, 0⟩) 9 =
      some ([((0, 0), (1, 1)), ((7, 2), (1, 1)), ((70, 4), (1, 1)), ((637, 6), (1, 1)),
        ((1, 1), (-1, 1)), ((16, 3), (-1, 1)), ((151, 5), (-1, 1))],
        1, 0, [(0, 0), (7, 2), (70, 4), (637, 6)], [(1, 1), (16, 3), (151, 5)], 1) := by
    rfl
  exact ⟨hempty, hsim,
    c7_table_invariant.2 [] 0 0 1 0 true (fun _ => ⟨0, 0⟩) 9 _ 1 0 _ _ 1 hempty hsim⟩

theorem c8_eval_does_not_touch_table_witness :
    simulate_game [] 0 0 3 0 false (fun _ => ⟨0, 0⟩) 9 =
      some ([], 1, 0, [(0, 0), (7, 2), (70, 4), (637, 6)], [(1, 1), (16, 3), (151, 5)], 1) ∧
    ([] : QTable) = ([] : QTable) := by
  have hsim : simulate_game [] 0 0 3 0 false (fun _ => ⟨0, 0⟩) 9 =
      some ([], 1, 0, [(0, 0), (7, 2), (70, 4), (637, 6)], [(1, 1), (16, 3), (151, 5)], 1) := by
    rfl
  exact ⟨hsim, c8_eval_does_not_touch_table [] 0 0 3 0 (fun _ => ⟨0, 0⟩) 9 [] 1 0
    [(0, 0), (7, 2), (70, 4), (637, 6)] [(1, 1), (16, 3), (151, 5)] 1 hsim⟩

/- ---------------------------------------------------------------------
   Distinctness of recorded keys within one game (C2)
   --------------------------------------------------------------------- -/

/-- Symmetry transforms permute the digits, so they preserve the number of
empty cells. -/
theorem emptyCnt_transform (t : Nat) (ht : t < 8) (s : Nat) :
    emptyCnt (_transform_state s t) = emptyCnt s := by
  rw [emptyCnt_eq_countP, emptyCnt_eq_countP]
  rw [List.countP_congr fun i hi => by
    rw [ts_digit t ht s i (List.mem_range.mp hi)]]
  have hmap : (List.range 9).countP (fun i => digit s (invT t i) == 0)
      = ((List.range 9).map (invT t)).countP (fun j => digit s j == 0) := by
    rw [List.countP_map]
    rfl
  rw [hmap, (invT_perm t ht).countP_eq]

/-- The canonical key's state component has as many empty cells as the board
it was built from. -/
theorem canon_state_emptyCnt (s a : Nat) :
    emptyCnt (canonicalize_state_action s a).1 = emptyCnt s := by
  obtain ⟨t, htm, heq⟩ := List.mem_map.mp (canon_mem s a)
  have ht := List.mem_range.mp htm
  have h1 : (canonicalize_state_action s a).1 = _transform_state s t := by rw [← heq]
  rw [h1, emptyCnt_transform t ht s]

/-- Keys appended to the histories by the game loop all come from boards with
at most as many empty cells as the entry board, and every recorded key has a
distinct empty-cell count (the board loses one stone per ply). -/
theorem play_loop_hists (gen : Nat) (eps : ℚ) (q : QTable) (ctx : Nat → MoveCtx) :
    ∀ fuel ply cur board h1 h2 b' h1' h2' res,
      play_loop gen eps q ctx fuel ply cur board h1 h2 = some (b', h1', h2', res) →
      ∃ d1 d2, h1' = h1 ++ d1 ∧ h2' = h2 ++ d2 ∧
        (∀ k ∈ d1 ++ d2, emptyCnt k.1 ≤ emptyCnt board) ∧
        List.Pairwise (fun x y => emptyCnt x.1 ≠ emptyCnt y.1) (d1 ++ d2) := by
  intro fuel
  induction fuel with
  | zero =>
    intro ply cur board h1 h2 b' h1' h2' res h
    exact Option.noConfusion h
  | succ f ih =>
    intro ply cur board h1 h2 b' h1' h2' res h
    rw [play_loop_succ] at h
    set picked := get_and_save_move board gen (some q) eps (ctx ply)
      (if cur then h1 else h2) with hpicked
    set b2 := (make_move_cpu board (if cur then 1 else 2) (picked.1 : Int)).2 with hb2
    set key := canonicalize_state_action board picked.1 with hkeydef
    have hsnd : picked.2 = (if cur then h1 else h2) ++ [key] :=
      gasm_snd board gen (some q) eps (ctx ply) (if cur then h1 else h2)
    have hkey : emptyCnt key.1 = emptyCnt board := canon_state_emptyCnt board picked.1
    clear_value key b2 picked
    by_cases hres : check_winner b2 ≠ 0
    · rw [if_pos hres] at h
      have hinj := Option.some.inj h
      simp only [Prod.mk.injEq] at hinj
      obtain ⟨-, e1, e2, -⟩ := hinj
      cases cur
      · simp only [Bool.false_eq_true, if_false] at e1 e2 hsnd
        refine ⟨[], [key], ?_, ?_, ?_, ?_⟩
        · rw [← e1, List.append_nil]
        · rw [← e2, hsnd]
        · intro k hk
          simp only [List.nil_append, List.mem_singleton] at hk
          rw [hk]
          exact le_of_eq hkey
        · simp
      · simp only [if_true] at e1 e2 hsnd
        refine ⟨[key], [], ?_, ?_, ?_, ?_⟩
        · rw [← e1, hsnd]
        · rw [← e2, List.append_nil]
        · intro k hk
          simp only [List.append_nil, List.mem_singleton] at hk
          rw [hk]
          exact le_of_eq hkey
        · simp
    · rw [if_neg hres] at h
      push_neg at hres
      by_cases hmv : get_valid_moves board = []
      · exfalso
        have hb : b2 = board := by rw [hb2]; exact make_move_cpu_stuck board _ _ hmv
        rw [hb] at hres
        exact check_winner_ne_zero_of_full board hmv hres
      · have hmem : picked.1 ∈ get_valid_moves board := by
          rw [hpicked]
          exact gasm_mem board gen (some q) eps (ctx ply) (if cur then h1 else h2) hmv
        obtain ⟨hm9, hmd⟩ := (mem_get_valid_moves board picked.1).mp hmem
        have hpne : (if cur then 1 else 2) ≠ 0 := by cases cur <;> simp
        have hp3 : (if cur then 1 else 2) < 3 := by cases cur <;> simp
        have hcnt : emptyCnt b2 = emptyCnt board - 1 := by
          rw [hb2, make_move_cpu_legal board _ picked.1 hm9 hmd]
          exact emptyCnt_set board picked.1 _ hm9 hmd hpne hp3
        have h1b : 1 ≤ emptyCnt board := emptyCnt_pos_of_ne board hmv
        obtain ⟨d1r, d2r, he1, he2, hbound, hpw⟩ :=
          ih (ply + 1) (!cur) b2 (if cur then picked.2 else h1)
            (if cur then h2 else picked.2) b' h1' h2' res h
        cases cur
        · simp only [Bool.false_eq_true, if_false] at he1 he2 hsnd
          refine ⟨d1r, key :: d2r, he1, ?_, ?_, ?_⟩
          · rw [he2, hsnd, List.append_assoc]
            rfl
          · intro k hk
            rcases List.mem_append.mp hk with hk1 | hk2
            · exact le_trans (hbound k (List.mem_append_left _ hk1)) (by omega)
            · rcases List.mem_cons.mp hk2 with rfl | hk2'
              · exact le_of_eq hkey
              · exact le_trans (hbound k (List.mem_append_right _ hk2')) (by omega)
          · rw [List.pairwise_middle fun {x y} hxy => Ne.symm hxy]
            constructor
            · intro y hy
              have hyb := hbound y hy
              rw [hkey]
              omega
            · exact hpw
        · simp only [if_true] at he1 he2 hsnd
          refine ⟨key :: d1r, d2r, ?_, he2, ?_, ?_⟩
          · rw [he1, hsnd, List.append_assoc]
            rfl
          · intro k hk
            simp only [List.cons_append] at hk
            rcases List.mem_cons.mp hk with rfl | hk'
            · exact le_of_eq hkey
            · exact le_trans (hbound k hk') (by omega)
          · simp only [List.cons_append]
            constructor
            · intro y hy
              have hyb := hbound y hy
              rw [hkey]
              omega
            · exact hpw

/-- Within one completed game the recorded keys of both agents are pairwise
distinct (each ply's canonical state has a different number of empty cells). -/
theorem simulate_game_hists_nodup (q : QTable) (win_loss draws gen : Nat) (eps : ℚ)
    (learn : Bool) (ctx : Nat → MoveCtx) (fuel : Nat) (q' : QTable) (w' d' : Nat)
    (h1 h2 : List (Nat × Nat)) (res : Int)
    (hsim : simulate_game q win_loss draws gen eps learn ctx fuel =
      some (q', w', d', h1, h2, res)) :
    (h1 ++ h2).Nodup := by
  unfold simulate_game at hsim
  cases hloop : play_loop gen eps q ctx fuel 0 true 0 [] [] with
  | none =>
    rw [hloop] at hsim
    cases hsim
  | some r =>
    obtain ⟨b, hh1, hh2, hres⟩ := r
    rw [hloop] at hsim
    have hinj := Option.some.inj hsim
    simp only [Prod.mk.injEq] at hinj
    obtain ⟨-, -, -, hd1, he2, -⟩ := hinj
    subst hd1
    subst he2
    obtain ⟨d1, d2, he1, he2, -, hpw⟩ :=
      play_loop_hists gen eps q ctx fuel 0 true 0 [] [] b hh1 hh2 hres hloop
    simp only [List.nil_append] at he1 he2
    subst he1
    subst he2
    exact hpw.imp fun hne heq => hne (by rw [heq])

theorem count_eq_one_nd {α : Type} [BEq α] [LawfulBEq α] (l : List α) (k : α)
    (hnd : l.Nodup) (hk : k ∈ l) : l.count k = 1 := by
  induction l with
  | nil => simp at hk
  | cons b t ih =>
    rw [List.count_cons]
    rcases List.mem_cons.mp hk with rfl | h'
    · have hbt : k ∉ t := (List.nodup_cons.mp hnd).1
      have ht0 : t.count k = 0 := by
        rw [List.count_eq_zero]
        exact hbt
      simp [ht0]
    · have hne : k ≠ b := fun hc => (List.nodup_cons.mp hnd).1 (hc ▸ h')
      rw [ih (List.nodup_cons.mp hnd).2 h']
      simp [hne, Ne.symm hne]

/-- C2: after any completed game with learning on, each of the winning
agent's recorded keys (each occurs exactly once, and never in the other
history) gains exactly +1 on its sum, each of the losing agent's keys exactly
-1, draws contribute 0, every recorded key's count grows by exactly 1, and
every key outside both histories is unchanged. -/
theorem c2_reward_conservation (q : QTable) (win_loss draws gen : Nat) (eps : ℚ)
    (ctx : Nat → MoveCtx) (fuel : Nat) (q' : QTable) (w' d' : Nat)
    (h1 h2 : List (Nat × Nat)) (res : Int)
    (hsim : simulate_game q win_loss draws gen eps true ctx fuel =
      some (q', w', d', h1, h2, res)) :
    (h1 ++ h2).Nodup ∧
    (∀ k ∈ h1, qget q' k =
      ((qget q k).1 + (if res = -1 then 0 else if res = 1 then 1 else -1),
       (qget q k).2 + 1)) ∧
    (∀ k ∈ h2, qget q' k =
      ((qget q k).1 + (if res = -1 then 0 else if res = 1 then -1 else 1),
       (qget q k).2 + 1)) ∧
    (∀ k, k ∉ h1 → k ∉ h2 → qget q' k = qget q k) := by
  have hnd := simulate_game_hists_nodup q win_loss draws gen eps true ctx fuel
    q' w' d' h1 h2 res hsim
  have hq := fun k => simulate_game_qget q win_loss draws gen eps true ctx fuel
    q' w' d' h1 h2 res hsim k
  have hnd1 : h1.Nodup := hnd.of_append_left
  have hnd2 : h2.Nodup := hnd.of_append_right
  have hdisj : h1.Disjoint h2 := List.disjoint_of_nodup_append hnd
  refine ⟨hnd, ?_, ?_, ?_⟩
  · intro k hk
    have hc1 : h1.count k = 1 := count_eq_one_nd h1 k hnd1 hk
    have hc2 : h2.count k = 0 := List.count_eq_zero.mpr (hdisj hk)
    rw [hq k, if_pos rfl, hc1, hc2, rewardsOf_fst]
    rw [Prod.mk.injEq]
    constructor <;> push_cast <;> ring
  · intro k hk
    have hc1 : h1.count k = 0 := List.count_eq_zero.mpr fun hk1 => hdisj hk1 hk
    have hc2 : h2.count k = 1 := count_eq_one_nd h2 k hnd2 hk
    rw [hq k, if_pos rfl, hc1, hc2, rewardsOf_snd]
    rw [Prod.mk.injEq]
    constructor <;> push_cast <;> ring
  · intro k hk1 hk2
    have hc1 : h1.count k = 0 := List.count_eq_zero.mpr hk1
    have hc2 : h2.count k = 0 := List.count_eq_zero.mpr hk2
    rw [hq k, if_pos rfl, hc1, hc2]
    simp

theorem c2_reward_conservation_witness :
    simulate_game [] 0 0 1 0 true (fun _ => ⟨0, 0⟩) 9 =
      some ([((0, 0), (1, 1)), ((7, 2), (1, 1)), ((70, 4), (1, 1)), ((637, 6), (1, 1)),
          ((1, 1), (-1, 1)), ((16, 3), (-1, 1)), ((151, 5), (-1, 1))],
        1, 0, [(0, 0), (7, 2), (70, 4), (637, 6)], [(1, 1), (16, 3), (151, 5)], 1) ∧
    (0, 0) ∈ [((0 : Nat), (0 : Nat)), (7, 2), (70, 4), (637, 6)] ∧
    qget [((0, 0), (1, 1)), ((7, 2), (1, 1)), ((70, 4), (1, 1)), ((637, 6), (1, 1)),
        ((1, 1), (-1, 1)), ((16, 3), (-1, 1)), ((151, 5), (-1, 1))] (0, 0) =
      ((qget ([] : QTable) (0, 0)).1 +
        (if (1 : Int) = -1 then 0 else if (1 : Int) = 1 then 1 else -1),
       (qget ([] : QTable) (0, 0)).2 + 1) := by
  have hsim : simulate_game [] 0 0 1 0 true (fun _ => ⟨0, 0⟩) 9 =
      some ([((0, 0), (1, 1)), ((7, 2), (1, 1)), ((70, 4), (1, 1)), ((637, 6), (1, 1)),
          ((1, 1), (-1, 1)), ((16, 3), (-1, 1)), ((151, 5), (-1, 1))],
        1, 0, [(0, 0), (7, 2), (70, 4), (637, 6)], [(1, 1), (16, 3), (151, 5)], 1) := by
    rfl
  refine ⟨hsim, by decide, ?_⟩
  exact (c2_reward_conservation [] 0 0 1 0 (fun _ => ⟨0, 0⟩) 9 _ 1 0 _ _ 1 hsim).2.1
    (0, 0) (by decide)
